import Mathlib

/-!
Verification of the LLean search engine and tactic model.

This file is a shallow embedding of the repository's Python sources
(`llean/tactic_models.py` and `llean/search.py`) into Lean 4, together
with theorems settling the specification's testable properties.

Python strings are modelled as `List Char`; Python `dict`s are modelled
as association lists with first-match lookup where a prepended entry
shadows older entries (which matches mutation of a keyed entry).
-/

namespace LLean

/-- Python strings are sequences of unicode code points. -/
abbrev Str := List Char

/-- Whitespace as used by Python `str.strip`, `str.split` and the regex
class for whitespace (restricted to the ASCII whitespace characters,
which are the only ones appearing in the repository's inputs). -/
def isSpaceChar (c : Char) : Bool :=
  c = ' ' || c = '\t' || c = '\n' || c = '\r' || c = '\x0b' || c = '\x0c'

/-- Python `str.lstrip()`. -/
def pyLStrip (s : Str) : Str := s.dropWhile isSpaceChar

/-- Python `str.rstrip()`. -/
def pyRStrip (s : Str) : Str := (s.reverse.dropWhile isSpaceChar).reverse

/-- Python `str.strip()`. -/
def pyStrip (s : Str) : Str := pyRStrip (pyLStrip s)

/-- The characters of `s` strictly before the first occurrence of the
substring `pat`; all of `s` when `pat` does not occur.  This is
`s.split(pat, 1)[0]`. -/
def takeBeforeSub (pat : Str) : Str → Str
  | [] => []
  | c :: rest => if pat.isPrefixOf (c :: rest) then [] else c :: takeBeforeSub pat rest

/-- `_strip_inline_comment` from `tactic_models.py`:
`command.split("--", 1)[0].strip()`. -/
def stripInlineComment (command : Str) : Str :=
  pyStrip (takeBeforeSub "--".data command)

/-- The opening brackets recognised by `_split_arguments`. -/
def openBrackets : Str := ['(', '[', '\x7b']

/-- The closing brackets recognised by `_split_arguments`. -/
def closeBrackets : Str := [')', ']', '\x7d']

/-- Loop of `_split_arguments`: `current` is the accumulated entry text,
`depth` the bracket-nesting depth.  On a comma at depth zero the stripped
entry is emitted when non-empty; brackets adjust the depth (the closing
case is `max(depth - 1, 0)`, which is `Nat` subtraction here) and every
non-splitting character is appended to `current`. -/
def splitArgsAux : Str → Str → Nat → List Str
  | [], current, _depth =>
    let tail := pyStrip current
    if tail.isEmpty then [] else [tail]
  | c :: rest, current, depth =>
    if c = ',' && depth == 0 then
      let entry := pyStrip current
      (if entry.isEmpty then [] else [entry]) ++ splitArgsAux rest [] 0
    else if openBrackets.contains c then
      splitArgsAux rest (current ++ [c]) (depth + 1)
    else if closeBrackets.contains c then
      splitArgsAux rest (current ++ [c]) (depth - 1)
    else
      splitArgsAux rest (current ++ [c]) depth

/-- `_split_arguments` from `tactic_models.py`. -/
def split_arguments (argument_block : Str) : List Str :=
  splitArgsAux argument_block [] 0

/-- Like the scan in `_split_arguments`: does the string contain a comma
at bracket-nesting depth zero? -/
def hasTopComma : Str → Nat → Bool
  | [], _ => false
  | c :: rest, depth =>
    if c = ',' && depth == 0 then true
    else if openBrackets.contains c then hasTopComma rest (depth + 1)
    else if closeBrackets.contains c then hasTopComma rest (depth - 1)
    else hasTopComma rest depth

/-- `RewriteDirection` (`Literal["forward", "backward"]`). -/
inductive RewriteDirection
  | forward
  | backward
  deriving DecidableEq, Repr

/-- Errors raised by the tactic-model layer.  `parseError` models
`TacticParseError`; `validationError` models a `ValueError` raised by a
pydantic field validator during model construction. -/
inductive TacticError
  | parseError (message : Str)
  | validationError (message : Str)
  deriving DecidableEq, Repr

/-- `RewriteRule`. -/
structure RewriteRule where
  expression : Str
  direction : RewriteDirection
  deriving DecidableEq, Repr

/-- Constructing a `RewriteRule` runs the `_strip_expression` field
validator: the expression is stripped and must be non-empty. -/
def RewriteRule.make (expression : Str) (direction : RewriteDirection) :
    Except TacticError RewriteRule :=
  let cleaned := pyStrip expression
  if cleaned.isEmpty then
    .error (.validationError "rewrite expression cannot be empty".data)
  else
    .ok { expression := cleaned, direction := direction }

/-- `RewriteRule.to_string`. -/
def RewriteRule.to_string (r : RewriteRule) : Str :=
  (match r.direction with
    | .backward => "← ".data
    | .forward => []) ++ r.expression

/-- `RewriteRule.from_string`. -/
def RewriteRule.from_string (token : Str) : Except TacticError RewriteRule :=
  let trimmed := pyStrip token
  if "←".data.isPrefixOf trimmed then
    RewriteRule.make (pyLStrip (trimmed.drop 1)) .backward
  else
    RewriteRule.make trimmed .forward

/-- The closed union of structured tactic models (`RewriteTactic`,
`ApplyTactic`, `NthRewriteTactic`). -/
inductive TacticModel
  | rewriteTactic (rules : List RewriteRule) (location : Option Str)
  | applyTactic (expression : Str) (location : Option Str)
  | nthRewriteTactic (index : Nat) (rule : RewriteRule) (location : Option Str)
  deriving DecidableEq, Repr

/-- The regex fragment `\s+at\s+(?P<location>.+)` matched against the
whole of `r` (greedy quantifiers; the final `\s+` gives one character
back to the mandatory `.+` when everything after `at` is whitespace). -/
def atClause (r : Str) : Option Str :=
  if (r.takeWhile isSpaceChar).isEmpty then none
  else
    let r1 := r.dropWhile isSpaceChar
    if "at".data.isPrefixOf r1 then
      let r2 := r1.drop 2
      let w := (r2.takeWhile isSpaceChar).length
      if w = 0 then none
      else if r2.length ≤ w then
        if 2 ≤ w then some (r2.drop (w - 1)) else none
      else some (r2.drop w)
    else none

/-- The optional group `(?:\s+at\s+(?P<location>.+))?$` against `rest`:
the group is tried first (regex alternatives prefer presence), and the
empty alternative requires the end of the string. -/
def optionalAtTail (rest : Str) : Option (Option Str) :=
  match atClause rest with
  | some loc => some (some loc)
  | none => if rest.isEmpty then some none else none

/-- All decompositions `t = body ++ ']' :: rest`, longest `body` first —
the backtracking order of the greedy `(?P<body>.+)]` with `re.DOTALL`. -/
def bracketSplits (t : Str) : List (Str × Str) :=
  ((List.range t.length).reverse).filterMap fun i =>
    if t.get? i = some ']' then some (t.take i, t.drop (i + 1)) else none

/-- Matching `(?P<body>.+)](?:\s+at\s+(?P<location>.+))?$` against `t`:
the longest non-empty body whose tail parses. -/
def rwBodyMatch (t : Str) : Option (Str × Option Str) :=
  (bracketSplits t).findSome? fun bodyRest =>
    if bodyRest.1.isEmpty then none
    else (optionalAtTail bodyRest.2).map fun loc => (bodyRest.1, loc)

/-- `RewriteTactic._pattern` (`^rw\s+\[ ... $`) as a full match. -/
def rwMatch (cleaned : Str) : Option (Str × Option Str) :=
  if "rw".data.isPrefixOf cleaned then
    let t := cleaned.drop 2
    if (t.takeWhile isSpaceChar).isEmpty then none
    else
      match t.dropWhile isSpaceChar with
      | '[' :: t2 => rwBodyMatch t2
      | _ => none
  else none

/-- Numeric value of a digit run (`int(...)` on the `\d+` group). -/
def digitsToNat (ds : Str) : Nat :=
  ds.foldl (fun acc c => acc * 10 + (c.toNat - '0'.toNat)) 0

/-- `NthRewriteTactic._pattern`
(`^nth_rewrite\s+(?P<index>\d+)\s+\[ ... $`) as a full match. -/
def nthRewriteMatch (cleaned : Str) : Option (Nat × Str × Option Str) :=
  if "nth_rewrite".data.isPrefixOf cleaned then
    let t := cleaned.drop 11
    if (t.takeWhile isSpaceChar).isEmpty then none
    else
      let t1 := t.dropWhile isSpaceChar
      let ds := t1.takeWhile Char.isDigit
      if ds.isEmpty then none
      else
        let t2 := t1.drop ds.length
        if (t2.takeWhile isSpaceChar).isEmpty then none
        else
          match t2.dropWhile isSpaceChar with
          | '[' :: t3 => (rwBodyMatch t3).map fun bl => (digitsToNat ds, bl.1, bl.2)
          | _ => none
  else none

/-- `ApplyTactic._pattern`
(`^apply\s+(?P<expr>.+?)(?:\s+at\s+(?P<location>.+))?$`) as a full
match: the lazy `.+?` takes the shortest expression admitting a match,
preferring a present `at` clause at each length; when everything after
`apply` is whitespace the greedy `\s+` gives one character back. -/
def applyMatch (cleaned : Str) : Option (Str × Option Str) :=
  if "apply".data.isPrefixOf cleaned then
    let t := cleaned.drop 5
    let w := (t.takeWhile isSpaceChar).length
    if w = 0 then none
    else if t.length ≤ w then
      if 2 ≤ w then some (t.drop (w - 1), none) else none
    else
      let u := t.drop w
      match (List.range' 1 (u.length - 1)).findSome? (fun k =>
          (atClause (u.drop k)).map fun loc => (u.take k, some loc)) with
      | some res => some res
      | none => some (u, none)
  else none

/-- `target = location.strip() if location else None` (an empty captured
location is falsy). -/
def normLocation : Option Str → Option Str
  | none => none
  | some l => if l.isEmpty then none else some (pyStrip l)

/-- `RewriteTactic.from_string`. -/
def RewriteTactic.from_string (command : Str) : Except TacticError TacticModel :=
  let cleaned := stripInlineComment command
  match rwMatch cleaned with
  | none =>
    .error (.parseError ("Unable to parse rewrite command: '".data ++ command ++ "'".data))
  | some (body0, location) =>
    let body := pyStrip body0
    let tokens := split_arguments body
    if tokens.isEmpty then
      .error (.parseError "`rw` requires at least one rewrite rule".data)
    else do
      let rules ← tokens.mapM RewriteRule.from_string
      return .rewriteTactic rules (normLocation location)

/-- `ApplyTactic.from_string` (the expression field validator strips and
rejects an empty expression). -/
def ApplyTactic.from_string (command : Str) : Except TacticError TacticModel :=
  let cleaned := stripInlineComment command
  match applyMatch cleaned with
  | none =>
    .error (.parseError ("Unable to parse apply command: '".data ++ command ++ "'".data))
  | some (expr, location) =>
    let cleanedExpr := pyStrip expr
    if cleanedExpr.isEmpty then
      .error (.validationError "`apply` requires a non-empty expression".data)
    else
      .ok (.applyTactic cleanedExpr (normLocation location))

/-- `NthRewriteTactic.from_string`. -/
def NthRewriteTactic.from_string (command : Str) : Except TacticError TacticModel :=
  let cleaned := stripInlineComment command
  match nthRewriteMatch cleaned with
  | none =>
    .error (.parseError ("Unable to parse nth_rewrite command: '".data ++ command ++ "'".data))
  | some (index, body0, location) =>
    let body := pyStrip body0
    match split_arguments body with
    | [token] => do
      let rule ← RewriteRule.from_string token
      return .nthRewriteTactic index rule (normLocation location)
    | _ =>
      .error (.parseError "`nth_rewrite` currently supports exactly one rewrite rule".data)

/-- `TACTIC_REGISTRY`: keyword-indexed dispatch table. -/
def TACTIC_REGISTRY : List (Str × (Str → Except TacticError TacticModel)) :=
  [("rw".data, RewriteTactic.from_string),
   ("apply".data, ApplyTactic.from_string),
   ("nth_rewrite".data, NthRewriteTactic.from_string)]

/-- `TacticModel.from_string`: strip the inline comment, reject the
empty command, extract the leading keyword (`split(maxsplit=1)[0]` on a
string with no leading whitespace) and dispatch through the registry. -/
def TacticModel.from_string (command : Str) : Except TacticError TacticModel :=
  let stripped := stripInlineComment command
  if stripped.isEmpty then .error (.parseError "Empty tactic command".data)
  else
    let keyword := stripped.takeWhile (fun c => ¬ isSpaceChar c)
    match TACTIC_REGISTRY.lookup keyword with
    | some factory => factory stripped
    | none =>
      .error (.parseError ("Unsupported tactic keyword: '".data ++ keyword ++ "'".data))

/-- The `at` suffix rendered by the `to_string` methods (skipped for an
absent or falsy location). -/
def locationSuffix : Option Str → Str
  | none => []
  | some l => if l.isEmpty then [] else " at ".data ++ l

/-- The `to_string` methods of the three tactic models. -/
def TacticModel.to_string : TacticModel → Str
  | .rewriteTactic rules location =>
    "rw [".data ++ List.intercalate ", ".data (rules.map RewriteRule.to_string)
      ++ "]".data ++ locationSuffix location
  | .applyTactic expression location =>
    "apply ".data ++ expression ++ locationSuffix location
  | .nthRewriteTactic index rule location =>
    "nth_rewrite ".data ++ (Nat.repr index).data ++ " [".data ++ rule.to_string
      ++ "]".data ++ locationSuffix location

/-- `parse_tactic`. -/
def parse_tactic (command : Str) : Except TacticError TacticModel :=
  TacticModel.from_string command

/-- Python substring containment `pat in s`. -/
def containsSub (pat : Str) : Str → Bool
  | [] => pat.isPrefixOf []
  | c :: rest => pat.isPrefixOf (c :: rest) || containsSub pat rest

/-- Split on a separator character, keeping empty pieces. -/
def splitOnChar (sep : Char) : Str → List Str
  | [] => [[]]
  | c :: rest =>
    if c = sep then [] :: splitOnChar sep rest
    else
      match splitOnChar sep rest with
      | [] => [[c]]
      | line :: more => (c :: line) :: more

/-- Python `str.splitlines()` for newline-separated text: like splitting
on the newline character, except that the empty string yields no lines
and a trailing newline yields no final empty line. -/
def pySplitLines (s : Str) : List Str :=
  if s.isEmpty then []
  else
    let parts := splitOnChar '\n' s
    if s.getLast? = some '\n' then parts.dropLast else parts

/-- Loop of `pySplitWS`: `current` is the token accumulated so far;
whitespace flushes it (when non-empty) and other characters extend it. -/
def pySplitWSAux : Str → Str → List Str
  | [], current => if current.isEmpty then [] else [current]
  | c :: rest, current =>
    if isSpaceChar c then
      (if current.isEmpty then [] else [current]) ++ pySplitWSAux rest []
    else pySplitWSAux rest (current ++ [c])

/-- Python `str.split()` with no separator: maximal runs of
non-whitespace characters, never producing empty tokens. -/
def pySplitWS (s : Str) : List Str := pySplitWSAux s []

/-- The text left of the first occurrence of `sep` (`split(sep, 1)[0]`
when `sep` occurs). -/
def beforeChar (sep : Char) (s : Str) : Str :=
  s.takeWhile (fun c => !(c = sep))

/-- The text right of the first occurrence of `sep` (`split(sep, 1)[1]`
when `sep` occurs). -/
def afterChar (sep : Char) (s : Str) : Str :=
  (s.dropWhile (fun c => !(c = sep))).drop 1

/-- The tokens whose presence in a hypothesis type disqualifies the line
as an induction candidate in `_parse_goal`. -/
def disallowedTypeTokens : List Str :=
  ["→".data, "∀".data, "∃".data, "↔".data, "≠".data, "≤".data, "≥".data, "⊢".data, ":=".data]

/-- The whitespace/comma-separated names left of the first colon of a
(stripped) line — what `_parse_goal` extracts from one hypothesis
line. -/
def lineNames (raw_line : Str) : List Str :=
  let line := pyStrip raw_line
  if containsSub ":".data line then
    (pySplitWS ((beforeChar ':' line).map (fun c => if c = ',' then ' ' else c))).filter
      (fun part => !part.isEmpty)
  else []

/-- The line loop of `_parse_goal`: blank and `case` lines are skipped,
the first `⊢` line stops processing, lines without a colon are skipped,
and the names of each remaining line are classified by its type text
(equality wins, then the disallowed tokens skip the line, otherwise the
names are induction targets). -/
def parseGoalLines : List Str → List Str × List Str
  | [] => ([], [])
  | raw_line :: rest =>
    let line := pyStrip raw_line
    if line.isEmpty || "case".data.isPrefixOf line then parseGoalLines rest
    else if "⊢".data.isPrefixOf line then ([], [])
    else if !containsSub ":".data line then parseGoalLines rest
    else
      let name := beforeChar ':' line
      let type0 := afterChar ':' line
      let raw_names := (pySplitWS (name.map (fun c => if c = ',' then ' ' else c))).filter
        (fun part => !part.isEmpty)
      let type_str := pyStrip type0
      if raw_names.isEmpty then parseGoalLines rest
      else if containsSub "=".data type_str then
        let ei := parseGoalLines rest
        (raw_names ++ ei.1, ei.2)
      else if disallowedTypeTokens.any (fun token => containsSub token type_str) then
        parseGoalLines rest
      else
        let ei := parseGoalLines rest
        (ei.1, raw_names ++ ei.2)

/-- `_parse_goal` from `search.py`: equality-hypothesis names and
induction-target names of a goal text. -/
def parse_goal (goal : Str) : List Str × List Str :=
  parseGoalLines (pySplitLines goal)

/-- `generate_tactic_candidates` from `search.py`. -/
def generate_tactic_candidates (goal : Str) (available_tactics : List Str)
    (lemmas : List Str) : List Str :=
  let available := available_tactics
  let parsed := parse_goal goal
  let eqs := parsed.1
  let induct_targets := parsed.2
  let lemma_list := lemmas.filter (fun l => !l.isEmpty)
  let rewrite_names := (eqs ++ lemma_list).foldl
    (fun acc name => if acc.contains name then acc else acc ++ [name]) []
  let candidates := if available.contains "rfl".data then ["rfl".data] else []
  let candidates :=
    if available.contains "rw".data then
      rewrite_names.foldl (fun acc name =>
        acc ++ ["rw [".data ++ name ++ "]".data, "rw [← ".data ++ name ++ "]".data])
        candidates
    else candidates
  let candidates :=
    if available.contains "nth_rewrite".data then
      [1, 2, 3].foldl (fun acc position =>
        rewrite_names.foldl (fun acc2 name =>
          acc2 ++
            ["nth_rewrite ".data ++ (Nat.repr position).data ++ " [".data ++ name ++ "]".data,
             "nth_rewrite ".data ++ (Nat.repr position).data ++ " [← ".data ++ name ++ "]".data])
          acc)
        candidates
    else candidates
  let candidates :=
    if available.contains "induction".data then
      induct_targets.foldl (fun acc name => acc ++ ["induction ".data ++ name]) candidates
    else candidates
  candidates

/-- Candidate generation as the specification words it: the gated blocks
`rfl`, rewrite pairs over the deduplicated pool, indexed rewrites with
the position loop outermost over positions 1..3, then induction
candidates in parser order, concatenated. -/
def specCandidates (goal : Str) (available : List Str) (lemmas : List Str) : List Str :=
  let parsed := parse_goal goal
  let pool := (parsed.1 ++ lemmas).foldl
    (fun acc name => if acc.contains name then acc else acc ++ [name]) []
  (if available.contains "rfl".data then ["rfl".data] else [])
    ++ (if available.contains "rw".data then
          pool.flatMap (fun name =>
            ["rw [".data ++ name ++ "]".data, "rw [← ".data ++ name ++ "]".data])
        else [])
    ++ (if available.contains "nth_rewrite".data then
          [1, 2, 3].flatMap (fun position => pool.flatMap (fun name =>
            ["nth_rewrite ".data ++ (Nat.repr position).data ++ " [".data ++ name ++ "]".data,
             "nth_rewrite ".data ++ (Nat.repr position).data ++ " [← ".data ++ name ++ "]".data]))
        else [])
    ++ (if available.contains "induction".data then
          parsed.2.map (fun name => "induction ".data ++ name)
        else [])

/-- The leading whitespace-delimited token of a candidate string — the
tactic keyword it invokes. -/
def firstToken (s : Str) : Str := s.takeWhile (fun c => !(isSpaceChar c))

/-- `SearchNode` from `search.py`. -/
structure SearchNode where
  state_id : Str
  goals : List Str
  depth : Nat
  tactics_tried : List Str := []
  successes : List (Str × Str) := []
  failures : List Str := []
  deriving DecidableEq, Repr

/-- `SearchGraph` from `search.py` (the nodes dict as an association
list whose first match is the current binding). -/
structure SearchGraph where
  nodes : List (Str × SearchNode) := []
  solutions : List (List Str) := []
  root : Option Str := none
  deriving DecidableEq, Repr

/-- `SearchGraph.record_node`. -/
def SearchGraph.record_node (g : SearchGraph) (state_id : Str) (goals : List Str)
    (depth : Nat) : SearchGraph :=
  match g.nodes.lookup state_id with
  | none =>
    let node : SearchNode := { state_id := state_id, goals := goals, depth := depth }
    let g1 := { g with nodes := (state_id, node) :: g.nodes }
    if depth = 0 ∧ g1.root = none then { g1 with root := some state_id } else g1
  | some node =>
    { g with nodes :=
        (state_id, { node with goals := goals, depth := min node.depth depth }) :: g.nodes }

/-- `SearchGraph.record_attempt` (the `setdefault` placeholder has empty
goals and depth 0). -/
def SearchGraph.record_attempt (g : SearchGraph) (state_id : Str) (tactic : Str)
    (success : Bool) (new_state : Option Str) : SearchGraph :=
  let node := (g.nodes.lookup state_id).getD { state_id := state_id, goals := [], depth := 0 }
  let node := { node with tactics_tried := node.tactics_tried ++ [tactic] }
  let node :=
    if success then
      match new_state with
      | some ns => { node with successes := node.successes ++ [(tactic, ns)] }
      | none => node
    else { node with failures := node.failures ++ [tactic] }
  { g with nodes := (state_id, node) :: g.nodes }

/-- The backend's reply to one `ProofStep` submission: either a
transport-level `LeanError`, or a response carrying the new proof-state
handle, the goal list (`none` modelling an absent list), and whether the
response reports errors (`has_errors()`). -/
inductive RunResult
  | leanError
  | response (proof_state : Str) (goals : Option (List Str)) (has_errors : Bool)
  deriving DecidableEq, Repr

/-- `isinstance(response, LeanError) or response.has_errors()`. -/
def respFailed : RunResult → Bool
  | .leanError => true
  | .response _ _ he => he

/-- `str(response.proof_state)` (unused on the failure path). -/
def respProofState : RunResult → Str
  | .leanError => []
  | .response ps _ _ => ps

/-- `response.goals or []`. -/
def respGoals : RunResult → List Str
  | .leanError => []
  | .response _ goals _ => goals.getD []

/-- The backend as a pure oracle: `server tactic proofState` is the
reply of `context.server.run(ProofStep(tactic, proofState))`.  The
initialization probe uses the handle `"0"` standing for the integer
proof-state 0. -/
abbrev Server := Str → Str → RunResult

/-- Ghost log entries recording what the traversal did, in order:
`reach s d` when state `s` is recorded at depth `d` (root seeding, a
successful tactic response, or a depth refresh), `expand s d` when the
traversal passes the depth checks and generates candidates for `s` from
a path of length `d`, and `submit s t` immediately before the backend
call for candidate `t` against `s`. -/
inductive Event
  | reach (state_id : Str) (depth : Nat)
  | expand (state_id : Str) (depth : Nat)
  | submit (state_id : Str) (tactic : Str)
  deriving DecidableEq, Repr

/-- The mutable locals of `depth_first_search`, plus the ghost event
log: `stateGoals` is the `state_goals` dict, `stack` the explicit DFS
work list (head = top), `stateDepth` the `state_depth` dict,
`exploredEdges` the explored-edges set, `traceGraph` the optional
`SearchGraph` trace, `solutions` the accumulated solution list. -/
structure DfsState where
  stateGoals : List (Str × List Str)
  stack : List (Str × List Str)
  stateDepth : List (Str × Nat)
  exploredEdges : List (Str × Str)
  traceGraph : Option SearchGraph
  solutions : List (List Str)
  events : List Event
  deriving DecidableEq, Repr

/-- The per-candidate loop of `depth_first_search` (source lines
174–196): deduplicate against `exploredEdges`, mark the edge, submit to
the backend; failures are recorded in the trace and skipped; successes
cache the goals, update the trace, and — unless the new state is already
known at an equal-or-shallower depth — record its depth and collect it
as a child.  Returns the updated state and the children in emission
order. -/
def processCandidates (server : Server) (state_id : Str) (sequence : List Str) :
    List Str → DfsState → DfsState × List (Str × List Str)
  | [], st => (st, [])
  | tactic :: rest, st =>
    if (state_id, tactic) ∈ st.exploredEdges then
      processCandidates server state_id sequence rest st
    else
      let st1 : DfsState := { st with
        exploredEdges := (state_id, tactic) :: st.exploredEdges,
        events := st.events ++ [Event.submit state_id tactic] }
      let response := server tactic state_id
      if respFailed response then
        let st2 : DfsState := { st1 with
          traceGraph := st1.traceGraph.map
            (fun g => g.record_attempt state_id tactic false none) }
        processCandidates server state_id sequence rest st2
      else
        let new_state := respProofState response
        let new_goals := respGoals response
        let new_depth := sequence.length + 1
        let st2 : DfsState := { st1 with
          stateGoals := (new_state, new_goals) :: st1.stateGoals,
          traceGraph := st1.traceGraph.map (fun g =>
            (g.record_attempt state_id tactic true (some new_state)).record_node
              new_state new_goals new_depth),
          events := st1.events ++ [Event.reach new_state new_depth] }
        match st2.stateDepth.lookup new_state with
        | some recorded_child =>
          if recorded_child ≤ new_depth then
            processCandidates server state_id sequence rest st2
          else
            let st3 : DfsState := { st2 with
              stateDepth := (new_state, new_depth) :: st2.stateDepth }
            let out := processCandidates server state_id sequence rest st3
            (out.1, (new_state, sequence ++ [tactic]) :: out.2)
        | none =>
          let st3 : DfsState := { st2 with
            stateDepth := (new_state, new_depth) :: st2.stateDepth }
          let out := processCandidates server state_id sequence rest st3
          (out.1, (new_state, sequence ++ [tactic]) :: out.2)

/-- Expansion of one popped item: log the expansion, generate the
candidates from the branching goal, run the candidate loop, and push the
children in reverse so the first-emitted candidate is explored first. -/
def dfsExpand (server : Server) (available lemmas : List Str)
    (st : DfsState) (state_id : Str) (sequence : List Str) (goal_str : Str) : DfsState :=
  let st1 : DfsState := { st with
    events := st.events ++ [Event.expand state_id sequence.length] }
  let candidates := generate_tactic_candidates goal_str available lemmas
  let out := processCandidates server state_id sequence candidates st1
  { out.1 with stack := out.2.reverse.foldl (fun acc child => child :: acc) out.1.stack }

/-- Outcome of one iteration of the `while stack` loop. -/
inductive StepOutcome
  | continueWith (st : DfsState)
  | finished (st : DfsState) (solutions : List (List Str))
  deriving DecidableEq, Repr

/-- One iteration of the `while stack` loop of `depth_first_search`
(source lines 152–199): pop, prune over-depth items, return on an empty
goal list, apply the depth-dominance check (discard when the recorded
depth is smaller than the path length; refresh it when absent or
larger), and otherwise expand. -/
def dfsStep (server : Server) (available lemmas : List Str) (max_depth : Nat)
    (st : DfsState) : StepOutcome :=
  match st.stack with
  | [] => .finished st st.solutions
  | (state_id, sequence) :: stackRest =>
    let st := { st with stack := stackRest }
    if sequence.length > max_depth then .continueWith st
    else
      let goals := (st.stateGoals.lookup state_id).getD []
      if goals.isEmpty then
        let st : DfsState := { st with
          solutions := st.solutions ++ [sequence],
          traceGraph := st.traceGraph.map
            (fun g => { g with solutions := g.solutions ++ [sequence] }) }
        .finished st st.solutions
      else
        let goal_str := goals.headD []
        match st.stateDepth.lookup state_id with
        | some recorded_depth =>
          if recorded_depth < sequence.length then .continueWith st
          else if recorded_depth > sequence.length then
            let st : DfsState := { st with
              stateDepth := (state_id, sequence.length) :: st.stateDepth,
              events := st.events ++ [Event.reach state_id sequence.length] }
            .continueWith (dfsExpand server available lemmas st state_id sequence goal_str)
          else
            .continueWith (dfsExpand server available lemmas st state_id sequence goal_str)
        | none =>
          let st : DfsState := { st with
            stateDepth := (state_id, sequence.length) :: st.stateDepth,
            events := st.events ++ [Event.reach state_id sequence.length] }
          .continueWith (dfsExpand server available lemmas st state_id sequence goal_str)

/-- The `while stack` loop, iterated under a fuel bound (the loop itself
carries no bound; every theorem below holds for every fuel). -/
def dfsLoop (server : Server) (available lemmas : List Str) (max_depth : Nat) :
    Nat → DfsState → DfsState × List (List Str)
  | 0, st => (st, st.solutions)
  | fuel + 1, st =>
    match dfsStep server available lemmas max_depth st with
    | .finished stf sols => (stf, sols)
    | .continueWith st2 => dfsLoop server available lemmas max_depth fuel st2

/-- The result of a search run: the returned solution list plus the
final bookkeeping state (with its ghost event log). -/
structure DfsRun where
  finalState : DfsState
  solutions : List (List Str)
  deriving DecidableEq, Repr

/-- The state before any traversal. -/
def emptyDfsState : DfsState :=
  { stateGoals := [], stack := [], stateDepth := [], exploredEdges := [],
    traceGraph := none, solutions := [], events := [] }

/-- `depth_first_search` (source lines 124–203), with the level context
split into its components (`server`, the available tactic names and the
lemma names supplied by the level loader): probe the backend with the
no-op `skip` step, return no solutions on probe failure, otherwise seed
the root state and run the traversal loop. -/
def depth_first_search_run (server : Server) (available lemmas : List Str)
    (max_depth fuel : Nat) (trace : Option SearchGraph) : DfsRun :=
  let root := server "skip".data "0".data
  if respFailed root then
    { finalState := { emptyDfsState with traceGraph := trace }, solutions := [] }
  else
    let root_state := respProofState root
    let root_goals := respGoals root
    let trace1 := trace.map (fun g => g.record_node root_state root_goals 0)
    let st0 : DfsState := {
      stateGoals := [(root_state, root_goals)],
      stack := [(root_state, [])],
      stateDepth := [(root_state, 0)],
      exploredEdges := [],
      traceGraph := trace1,
      solutions := [],
      events := [Event.reach root_state 0] }
    let out := dfsLoop server available lemmas max_depth fuel st0
    { finalState := out.1, solutions := out.2 }

/-- The solution list returned by `depth_first_search`. -/
def depth_first_search (server : Server) (available lemmas : List Str)
    (max_depth fuel : Nat) (trace : Option SearchGraph) : List (List Str) :=
  (depth_first_search_run server available lemmas max_depth fuel trace).solutions

/-- The `(state, tactic)` pairs submitted to the backend during the
traversal, in submission order. -/
def submitsOf (evs : List Event) : List (Str × Str) :=
  evs.filterMap fun e =>
    match e with
    | .submit s t => some (s, t)
    | _ => none

/-- The `(state, depth)` pairs at which states were reached, in order. -/
def reachesOf (evs : List Event) : List (Str × Nat) :=
  evs.filterMap fun e =>
    match e with
    | .reach s d => some (s, d)
    | _ => none

/-- Scanning the event log with the reaches seen so far accumulated in
`acc`: every expansion of a state happens at a depth no larger than any
depth at which that state had been reached before it. -/
def expandsDominated : List Event → List (Str × Nat) → Bool
  | [], _ => true
  | .reach s d :: rest, acc => expandsDominated rest (acc ++ [(s, d)])
  | .expand s d :: rest, acc =>
    acc.all (fun p => if p.1 = s then decide (d ≤ p.2) else true)
      && expandsDominated rest acc
  | .submit _ _ :: rest, acc => expandsDominated rest acc

/-- The failure list the trace records for a state (empty when the state
has no node). -/
def failuresOf (g : SearchGraph) (state_id : Str) : List Str :=
  ((g.nodes.lookup state_id).map SearchNode.failures).getD []

/-- A backend whose every reply is a transport error — the probe
fails. -/
def alwaysFailServer : Server := fun _ _ => RunResult.leanError

/-- A backend that answers the probe with root state `"1"` holding one
opaque goal and fails every tactic. -/
def probeOnlyServer : Server := fun tactic proofState =>
  if proofState = "0".data ∧ tactic = "skip".data then
    .response "1".data (some ["g".data]) false
  else .leanError

/-- A backend that answers the probe with root state `"1"` holding one
goal and closes it by `rfl`, reaching the goalless state `"2"`. -/
def rflServer : Server := fun tactic proofState =>
  if proofState = "0".data ∧ tactic = "skip".data then
    .response "1".data (some ["g".data]) false
  else if proofState = "1".data ∧ tactic = "rfl".data then
    .response "2".data none false
  else .leanError

/-- The traversal invariant tying the ghost log to the bookkeeping
state: submitted edges are duplicate-free and all marked explored, the
recorded depth of a state bounds (from below) every depth at which it
was reached and is itself one of those depths, every expansion happened
at a minimal reach depth, and every failed submission is recorded in the
trace's failure list. -/
structure CandInv (server : Server) (st : DfsState) : Prop where
  submits_nodup : (submitsOf st.events).Nodup
  submits_explored : ∀ p ∈ submitsOf st.events, p ∈ st.exploredEdges
  reach_depth : ∀ s d', (s, d') ∈ reachesOf st.events →
    ∃ d, st.stateDepth.lookup s = some d ∧ d ≤ d'
  depth_reached : ∀ s d, st.stateDepth.lookup s = some d → (s, d) ∈ reachesOf st.events
  expands_ok : expandsDominated st.events [] = true
  fails_recorded : ∀ g, st.traceGraph = some g →
    ∀ p ∈ submitsOf st.events, respFailed (server p.2 p.1) = true →
      p.2 ∈ failuresOf g p.1

/-- The full loop invariant: additionally, every pending stack item's
state has a recorded depth bounded by the item's path length, and no
solution has been accumulated (the loop returns on the first one). -/
structure DfsInv (server : Server) (st : DfsState) extends CandInv server st : Prop where
  stack_depth : ∀ p ∈ st.stack, ∃ d, st.stateDepth.lookup p.1 = some d ∧ d ≤ p.2.length
  solutions_nil : st.solutions = []

/-! ## Theorems -/

/-- Auxiliary: lookup after binding the same key. -/
theorem lookup_cons_self {α : Type} (k : Str) (v : α) (l : List (Str × α)) :
    ((k, v) :: l).lookup k = some v := by
  simp [List.lookup]

/-- Auxiliary: lookup after binding a different key. -/
theorem lookup_cons_of_ne {α : Type} (k k' : Str) (v : α) (l : List (Str × α))
    (h : ¬ k' = k) : ((k, v) :: l).lookup k' = l.lookup k' := by
  have hb : (k' == k) = false := by
    simpa using h
  simp [List.lookup, hb]

/-- Auxiliary: submitted pairs of a concatenated log. -/
theorem submitsOf_append (l1 l2 : List Event) :
    submitsOf (l1 ++ l2) = submitsOf l1 ++ submitsOf l2 := by
  simp [submitsOf, List.filterMap_append]

/-- Auxiliary: reached pairs of a concatenated log. -/
theorem reachesOf_append (l1 l2 : List Event) :
    reachesOf (l1 ++ l2) = reachesOf l1 ++ reachesOf l2 := by
  simp [reachesOf, List.filterMap_append]

/-- Auxiliary: the one-event logs. -/
theorem submitsOf_submit (s t : Str) : submitsOf [Event.submit s t] = [(s, t)] := rfl

/-- Auxiliary: a reach event submits nothing. -/
theorem submitsOf_reach (s : Str) (d : Nat) : submitsOf [Event.reach s d] = [] := rfl

/-- Auxiliary: an expand event submits nothing. -/
theorem submitsOf_expand (s : Str) (d : Nat) : submitsOf [Event.expand s d] = [] := rfl

/-- Auxiliary: a reach event reaches its pair. -/
theorem reachesOf_reach (s : Str) (d : Nat) : reachesOf [Event.reach s d] = [(s, d)] := rfl

/-- Auxiliary: a submit event reaches nothing. -/
theorem reachesOf_submit (s t : Str) : reachesOf [Event.submit s t] = [] := rfl

/-- Auxiliary: an expand event reaches nothing. -/
theorem reachesOf_expand (s : Str) (d : Nat) : reachesOf [Event.expand s d] = [] := rfl

/-- Auxiliary: the expansion-domination scan splits over
concatenation, the second part scanning with the first part's reaches
accumulated. -/
theorem expandsDominated_append : ∀ (l1 l2 : List Event) (acc : List (Str × Nat)),
    expandsDominated (l1 ++ l2) acc =
      (expandsDominated l1 acc && expandsDominated l2 (acc ++ reachesOf l1)) := by
  intro l1
  induction l1 with
  | nil => intro l2 acc; simp [expandsDominated, reachesOf]
  | cons e rest ih =>
    intro l2 acc
    cases e with
    | reach s d =>
      rw [List.cons_append, expandsDominated, expandsDominated, ih]
      simp [reachesOf, List.filterMap_cons]
    | expand s d =>
      rw [List.cons_append, expandsDominated, expandsDominated, ih]
      simp [reachesOf, List.filterMap_cons, Bool.and_assoc]
    | submit s t =>
      rw [List.cons_append, expandsDominated, expandsDominated, ih]
      simp [reachesOf, List.filterMap_cons]

/-- Auxiliary: appending to a duplicate-free list. -/
theorem nodup_snoc {α : Type} (l : List α) (a : α) (h1 : l.Nodup) (h2 : a ∉ l) :
    (l ++ [a]).Nodup := by
  simp [List.nodup_append, h1, h2]

/-- Auxiliary: folding cons over a reversed list prepends the list. -/
theorem foldl_cons_reverse {α : Type} : ∀ (l acc : List α),
    l.reverse.foldl (fun a c => c :: a) acc = l ++ acc := by
  have haux : ∀ (l acc : List α), l.foldl (fun a c => c :: a) acc = l.reverse ++ acc := by
    intro l
    induction l with
    | nil => intro acc; simp
    | cons x xs ih => intro acc; simp [List.foldl_cons, ih]
  intro l acc
  rw [haux, List.reverse_reverse]

/-- Auxiliary: `record_attempt` only grows a state's failure list. -/
theorem failuresOf_record_attempt_mono (g : SearchGraph) (sid tac : Str)
    (succ : Bool) (ns : Option Str) (s : Str) :
    ∀ x ∈ failuresOf g s, x ∈ failuresOf (g.record_attempt sid tac succ ns) s := by
  intro x hx
  by_cases hss : s = sid
  · subst hss
    simp only [failuresOf, SearchGraph.record_attempt, lookup_cons_self]
    cases hl : g.nodes.lookup s with
    | none =>
      rw [failuresOf, hl] at hx
      cases hx
    | some node =>
      rw [failuresOf, hl] at hx
      simp only [Option.map_some, Option.getD_some] at hx ⊢
      cases succ with
      | true =>
        cases ns with
        | none => simpa using hx
        | some n => simpa using hx
      | false =>
        exact List.mem_append_left _ (by simpa using hx)
  · simp only [failuresOf, SearchGraph.record_attempt]
    rw [lookup_cons_of_ne sid s _ _ hss]
    exact hx

/-- Auxiliary: a failed `record_attempt` puts the tactic into the
state's failure list. -/
theorem failuresOf_record_attempt_false_self (g : SearchGraph) (sid tac : Str) :
    tac ∈ failuresOf (g.record_attempt sid tac false none) sid := by
  simp only [failuresOf, SearchGraph.record_attempt, lookup_cons_self]
  cases hl : g.nodes.lookup sid <;>
    simp

/-- Auxiliary: `record_node` never changes a state's failure list. -/
theorem failuresOf_record_node (g : SearchGraph) (sid : Str) (goals : List Str)
    (depth : Nat) (s : Str) :
    failuresOf (g.record_node sid goals depth) s = failuresOf g s := by
  by_cases hss : s = sid
  · subst hss
    simp only [failuresOf, SearchGraph.record_node]
    cases hl : g.nodes.lookup s with
    | none =>
      by_cases hc : depth = 0 ∧ g.root = none
      · rw [if_pos hc]
        simp [lookup_cons_self, hl]
      · rw [if_neg hc]
        simp [lookup_cons_self, hl]
    | some node =>
      simp [lookup_cons_self, hl]
  · simp only [failuresOf, SearchGraph.record_node]
    cases hl : g.nodes.lookup sid with
    | none =>
      by_cases hc : depth = 0 ∧ g.root = none
      · rw [if_pos hc]
        rw [lookup_cons_of_ne sid s _ _ hss]
      · rw [if_neg hc]
        rw [lookup_cons_of_ne sid s _ _ hss]
    | some node =>
      rw [lookup_cons_of_ne sid s _ _ hss]

/-- Auxiliary: a left fold appending a block per element is the initial
list followed by the flattened blocks. -/
theorem foldl_append_flat {α β : Type} (f : α → List β) :
    ∀ (l : List α) (init : List β),
      l.foldl (fun acc x => acc ++ f x) init = init ++ l.flatMap f := by
  intro l
  induction l with
  | nil => intro init; simp
  | cons x xs ih => intro init; simp [List.foldl_cons, ih]

/-- Auxiliary: flattening singleton blocks is mapping. -/
theorem flatMap_singleton_map {α β : Type} (g : α → β) (l : List α) :
    (l.flatMap fun x => [g x]) = l.map g := by
  induction l with
  | nil => rfl
  | cons x xs ih => simp [ih]

/-- Auxiliary: a conditional append pulled to the right of the base
list. -/
theorem ite_append_right {α : Type} (b : Bool) (x y : List α) :
    (if b then x ++ y else x) = x ++ (if b then y else []) := by
  cases b <;> simp

/-- Auxiliary: filtering keeps a list whose elements all satisfy the
predicate. -/
theorem filter_eq_self_of_all {α : Type} (p : α → Bool) :
    ∀ l : List α, (∀ x ∈ l, p x = true) → l.filter p = l := by
  intro l
  induction l with
  | nil => intro _; rfl
  | cons x xs ih =>
    intro h
    rw [List.filter_cons, if_pos (h x (List.mem_cons_self x xs))]
    rw [ih fun y hy => h y (List.mem_cons_of_mem x hy)]

/-- Auxiliary: the candidate list of `generate_tactic_candidates`, in
gated-block form. -/
theorem generate_tactic_candidates_blocks (goal : Str) (available lemmas : List Str) :
    generate_tactic_candidates goal available lemmas =
      (let pool := ((parse_goal goal).1 ++ lemmas.filter (fun l => !l.isEmpty)).foldl
          (fun acc name => if acc.contains name then acc else acc ++ [name]) []
      (if available.contains "rfl".data then ["rfl".data] else [])
        ++ (if available.contains "rw".data then
              pool.flatMap (fun name =>
                ["rw [".data ++ name ++ "]".data, "rw [← ".data ++ name ++ "]".data])
            else [])
        ++ (if available.contains "nth_rewrite".data then
              [1, 2, 3].flatMap (fun position => pool.flatMap (fun name =>
                ["nth_rewrite ".data ++ (Nat.repr position).data
                    ++ " [".data ++ name ++ "]".data,
                 "nth_rewrite ".data ++ (Nat.repr position).data
                    ++ " [← ".data ++ name ++ "]".data]))
            else [])
        ++ (if available.contains "induction".data then
              (parse_goal goal).2.map (fun name => "induction ".data ++ name)
            else [])) := by
  simp only [generate_tactic_candidates, foldl_append_flat, ite_append_right]
  simp only [flatMap_singleton_map, List.append_assoc]

/-- Auxiliary: keywords of the emitted templates. -/
theorem firstToken_rfl : firstToken "rfl".data = "rfl".data := rfl

/-- Auxiliary: keyword of a forward rewrite candidate. -/
theorem firstToken_rw_fwd (x : Str) : firstToken ("rw [".data ++ x) = "rw".data := rfl

/-- Auxiliary: keyword of a backward rewrite candidate. -/
theorem firstToken_rw_bwd (x : Str) : firstToken ("rw [← ".data ++ x) = "rw".data := rfl

/-- Auxiliary: keyword of an indexed rewrite candidate. -/
theorem firstToken_nth (x : Str) :
    firstToken ("nth_rewrite ".data ++ x) = "nth_rewrite".data := rfl

/-- Auxiliary: keyword of an induction candidate. -/
theorem firstToken_induction (x : Str) :
    firstToken ("induction ".data ++ x) = "induction".data := rfl

/-- C4: candidate generation is the deterministic gated sequence the
specification describes — assuming the given lemma names are non-empty
strings, the output equals the spec-worded block sequence (`rfl` first
iff available, rewrite pairs over the deduplicated pool iff `rw`,
indexed rewrites for positions 1..3 with the position loop outermost iff
`nth_rewrite`, induction per target iff `induction`) — and every emitted
candidate's leading keyword is a member of the available-tactics set. -/
theorem generate_candidates_spec :
    (∀ (goal : Str) (available lemmas : List Str),
        (∀ l ∈ lemmas, l.isEmpty = false) →
        generate_tactic_candidates goal available lemmas =
          specCandidates goal available lemmas)
  ∧ (∀ (goal : Str) (available lemmas : List Str) (c : Str),
        c ∈ generate_tactic_candidates goal available lemmas →
        firstToken c ∈ available) := by
  constructor
  · intro goal available lemmas h
    rw [generate_tactic_candidates_blocks]
    have hfilter : lemmas.filter (fun l => !l.isEmpty) = lemmas := by
      refine filter_eq_self_of_all _ lemmas fun x hx => ?_
      simp [h x hx]
    rw [hfilter]
    rfl
  · intro goal available lemmas c hc
    rw [generate_tactic_candidates_blocks] at hc
    simp only [List.mem_append] at hc
    have hmem : ∀ kw : Str, available.contains kw = true → kw ∈ available := by
      intro kw hkw
      simpa using hkw
    rcases hc with ((hc | hc) | hc) | hc
    · by_cases hcond : available.contains "rfl".data = true
      · rw [if_pos hcond] at hc
        simp only [List.mem_singleton] at hc
        subst hc
        exact firstToken_rfl ▸ hmem _ hcond
      · rw [if_neg hcond] at hc
        simp at hc
    · by_cases hcond : available.contains "rw".data = true
      · rw [if_pos hcond] at hc
        rw [List.mem_flatMap] at hc
        obtain ⟨name, _, hc⟩ := hc
        simp only [List.mem_cons, List.mem_singleton] at hc
        rcases hc with hc | hc | hc
        · subst hc; rw [List.append_assoc, firstToken_rw_fwd]; exact hmem _ hcond
        · subst hc; rw [List.append_assoc, firstToken_rw_bwd]; exact hmem _ hcond
        · simp at hc
      · rw [if_neg hcond] at hc
        simp at hc
    · by_cases hcond : available.contains "nth_rewrite".data = true
      · rw [if_pos hcond] at hc
        rw [List.mem_flatMap] at hc
        obtain ⟨position, _, hc⟩ := hc
        rw [List.mem_flatMap] at hc
        obtain ⟨name, _, hc⟩ := hc
        simp only [List.mem_cons, List.mem_singleton] at hc
        rcases hc with hc | hc | hc
        · subst hc
          simp only [List.append_assoc]
          rw [firstToken_nth]
          exact hmem _ hcond
        · subst hc
          simp only [List.append_assoc]
          rw [firstToken_nth]
          exact hmem _ hcond
        · simp at hc
      · rw [if_neg hcond] at hc
        simp at hc
    · by_cases hcond : available.contains "induction".data = true
      · rw [if_pos hcond] at hc
        rw [List.mem_map] at hc
        obtain ⟨name, _, hc⟩ := hc
        subst hc
        rw [firstToken_induction]
        exact hmem _ hcond
      · rw [if_neg hcond] at hc
        simp at hc

/-- Witness for `generate_candidates_spec`: the `h : a = b` goal with
scope `rw` and no lemmas yields exactly the two rewrite candidates, and
the first candidate's keyword is in scope. -/
theorem generate_candidates_spec_witness :
    (generate_tactic_candidates "h : a = b".data ["rw".data] [] =
        specCandidates "h : a = b".data ["rw".data] [])
  ∧ specCandidates "h : a = b".data ["rw".data] [] = ["rw [h]".data, "rw [← h]".data]
  ∧ firstToken "rw [h]".data ∈ ["rw".data] :=
  ⟨generate_candidates_spec.1 "h : a = b".data ["rw".data] [] (by intro l hl; cases hl),
   rfl,
   generate_candidates_spec.2 "h : a = b".data ["rw".data] [] "rw [h]".data
     (by rw [show generate_tactic_candidates "h : a = b".data ["rw".data] []
           = ["rw [h]".data, "rw [← h]".data] from rfl]; exact List.mem_cons_self _ _)⟩

/-- Auxiliary: every name produced by the goal-line loop comes from the
names left of the first colon of one of the lines. -/
theorem parseGoalLines_names : ∀ (ls : List Str) (n : Str),
    n ∈ (parseGoalLines ls).1 ++ (parseGoalLines ls).2 →
    ∃ raw ∈ ls, n ∈ lineNames raw := by
  intro ls
  induction ls with
  | nil => intro n hn; simp [parseGoalLines] at hn
  | cons raw rest ih =>
    intro n hn
    simp only [parseGoalLines] at hn
    by_cases h1 : ((pyStrip raw).isEmpty || "case".data.isPrefixOf (pyStrip raw)) = true
    · rw [if_pos h1] at hn
      obtain ⟨r, hr, hmem⟩ := ih n hn
      exact ⟨r, List.mem_cons_of_mem raw hr, hmem⟩
    · rw [if_neg h1] at hn
      by_cases h2 : "⊢".data.isPrefixOf (pyStrip raw) = true
      · rw [if_pos h2] at hn
        simp at hn
      · rw [if_neg h2] at hn
        by_cases h3 : (!containsSub ":".data (pyStrip raw)) = true
        · rw [if_pos h3] at hn
          obtain ⟨r, hr, hmem⟩ := ih n hn
          exact ⟨r, List.mem_cons_of_mem raw hr, hmem⟩
        · rw [if_neg h3] at hn
          have hcolon : containsSub ":".data (pyStrip raw) = true := by
            simpa using h3
          have hnames : lineNames raw =
              (pySplitWS ((beforeChar ':' (pyStrip raw)).map
                (fun c => if c = ',' then ' ' else c))).filter
                (fun part => !part.isEmpty) := by
            simp only [lineNames, hcolon, if_true]
          by_cases h4 : ((pySplitWS ((beforeChar ':' (pyStrip raw)).map
              (fun c => if c = ',' then ' ' else c))).filter
                (fun part => !part.isEmpty)).isEmpty = true
          · rw [if_pos h4] at hn
            obtain ⟨r, hr, hmem⟩ := ih n hn
            exact ⟨r, List.mem_cons_of_mem raw hr, hmem⟩
          · rw [if_neg h4] at hn
            by_cases h5 : containsSub "=".data
                (pyStrip (afterChar ':' (pyStrip raw))) = true
            · rw [if_pos h5] at hn
              simp only [List.mem_append] at hn
              rcases hn with (hn | hn) | hn
              · exact ⟨raw, List.mem_cons_self raw rest, hnames ▸ hn⟩
              · obtain ⟨r, hr, hmem⟩ := ih n (List.mem_append_left _ hn)
                exact ⟨r, List.mem_cons_of_mem raw hr, hmem⟩
              · obtain ⟨r, hr, hmem⟩ := ih n (List.mem_append_right _ hn)
                exact ⟨r, List.mem_cons_of_mem raw hr, hmem⟩
            · rw [if_neg h5] at hn
              by_cases h6 : (disallowedTypeTokens.any fun token =>
                  containsSub token (pyStrip (afterChar ':' (pyStrip raw)))) = true
              · rw [if_pos h6] at hn
                obtain ⟨r, hr, hmem⟩ := ih n hn
                exact ⟨r, List.mem_cons_of_mem raw hr, hmem⟩
              · rw [if_neg h6] at hn
                simp only [List.mem_append] at hn
                rcases hn with hn | hn | hn
                · obtain ⟨r, hr, hmem⟩ := ih n (List.mem_append_left _ hn)
                  exact ⟨r, List.mem_cons_of_mem raw hr, hmem⟩
                · exact ⟨raw, List.mem_cons_self raw rest, hnames ▸ hn⟩
                · obtain ⟨r, hr, hmem⟩ := ih n (List.mem_append_right _ hn)
                  exact ⟨r, List.mem_cons_of_mem raw hr, hmem⟩

/-- C6: the goal parser is total, and every name it returns (in either
the equality or the induction sequence) occurs as a name left of the
first colon of some line of the input; an input none of whose lines
carries such names yields two empty sequences. -/
theorem parse_goal_names_sound :
    (∀ (goal : Str) (n : Str),
        n ∈ (parse_goal goal).1 ++ (parse_goal goal).2 →
        ∃ raw ∈ pySplitLines goal, n ∈ lineNames raw)
  ∧ (∀ goal : Str, (∀ raw ∈ pySplitLines goal, lineNames raw = []) →
        parse_goal goal = ([], [])) := by
  constructor
  · intro goal n hn
    exact parseGoalLines_names (pySplitLines goal) n hn
  · intro goal h
    have h1 : (parse_goal goal).1 = [] := by
      rw [List.eq_nil_iff_forall_not_mem]
      intro n hn
      obtain ⟨raw, hraw, hmem⟩ :=
        parseGoalLines_names (pySplitLines goal) n (List.mem_append_left _ hn)
      rw [h raw hraw] at hmem
      cases hmem
    have h2 : (parse_goal goal).2 = [] := by
      rw [List.eq_nil_iff_forall_not_mem]
      intro n hn
      obtain ⟨raw, hraw, hmem⟩ :=
        parseGoalLines_names (pySplitLines goal) n (List.mem_append_right _ hn)
      rw [h raw hraw] at hmem
      cases hmem
    exact Prod.ext h1 h2

/-- Witness for `parse_goal_names_sound`: the name `h` returned for a
one-hypothesis goal comes from its hypothesis line, and a goal with no
hypothesis line yields two empty sequences. -/
theorem parse_goal_names_sound_witness :
    (∃ raw ∈ pySplitLines "h : a = b\n⊢ a".data, "h".data ∈ lineNames raw)
  ∧ parse_goal "⊢ x = x".data = ([], []) :=
  ⟨parse_goal_names_sound.1 "h : a = b\n⊢ a".data "h".data (by decide),
   parse_goal_names_sound.2 "⊢ x = x".data (by decide)⟩

/-- C7 (amended): `record_node` creates an absent node with the given
goals and depth and fresh histories, designating the state as root
exactly when the new node's depth is 0 and no root is set; on an
existing node it overwrites the cached goals, lowers the depth to the
minimum of old and new, keeps the histories, and never touches the
root. -/
theorem record_node_spec :
    (∀ (g : SearchGraph) (sid : Str) (goals : List Str) (depth : Nat),
        g.nodes.lookup sid = none →
        ((g.record_node sid goals depth).nodes.lookup sid =
            some { state_id := sid, goals := goals, depth := depth }
          ∧ (g.record_node sid goals depth).root =
              (if depth = 0 ∧ g.root = none then some sid else g.root)))
  ∧ (∀ (g : SearchGraph) (sid : Str) (goals : List Str) (depth : Nat)
        (node : SearchNode),
        g.nodes.lookup sid = some node →
        ((g.record_node sid goals depth).nodes.lookup sid =
            some { node with goals := goals, depth := min node.depth depth }
          ∧ (g.record_node sid goals depth).root = g.root)) := by
  constructor
  · intro g sid goals depth h
    simp only [SearchGraph.record_node, h]
    constructor
    · by_cases hc : depth = 0 ∧ g.root = none
      · rw [if_pos hc]
        simp [List.lookup]
      · rw [if_neg hc]
        simp [List.lookup]
    · by_cases hc : depth = 0 ∧ g.root = none
      · rw [if_pos hc, if_pos hc]
      · rw [if_neg hc, if_neg hc]
  · intro g sid goals depth node h
    simp only [SearchGraph.record_node, h]
    constructor
    · simp [List.lookup]
    · trivial

/-- Witness for `record_node_spec`: a fresh depth-0 node on the empty
graph, and a second record on the same key lowering the depth. -/
theorem record_node_spec_witness :
    ((SearchGraph.record_node {} "s".data ["g".data] 0).nodes.lookup "s".data =
        some { state_id := "s".data, goals := ["g".data], depth := 0 }
      ∧ (SearchGraph.record_node {} "s".data ["g".data] 0).root =
          (if (0 : Nat) = 0 ∧ ({} : SearchGraph).root = none then some "s".data
           else ({} : SearchGraph).root))
  ∧ ((SearchGraph.record_node
        (SearchGraph.record_node {} "s".data [] 1) "s".data [] 0).nodes.lookup "s".data =
        some { state_id := "s".data, goals := [], depth := min 1 0 }
      ∧ (SearchGraph.record_node
          (SearchGraph.record_node {} "s".data [] 1) "s".data [] 0).root =
          (SearchGraph.record_node {} "s".data [] 1).root) :=
  ⟨record_node_spec.1 {} "s".data ["g".data] 0 rfl,
   record_node_spec.2 (SearchGraph.record_node {} "s".data [] 1) "s".data [] 0
     { state_id := "s".data, goals := [], depth := 1 } rfl⟩

/-- C7 counterexample: the claim's root clause fails when the node
already exists — recording an existing state at depth 0 with no root
set leaves the root unset. -/
theorem record_node_root_counterexample :
    (SearchGraph.record_node
        (SearchGraph.record_node {} "s".data [] 1) "s".data [] 0).root = none := rfl

/-- Auxiliary: when a block holds no comma at bracket depth zero, the
splitting loop accumulates the whole block into one entry. -/
theorem splitArgsAux_no_top_comma : ∀ (s cur : Str) (depth : Nat),
    hasTopComma s depth = false →
    splitArgsAux s cur depth =
      if (pyStrip (cur ++ s)).isEmpty then [] else [pyStrip (cur ++ s)] := by
  intro s
  induction s with
  | nil => intro cur depth _h; simp [splitArgsAux]
  | cons c rest ih =>
    intro cur depth h
    rw [hasTopComma] at h
    rw [splitArgsAux]
    have hassoc : cur ++ c :: rest = (cur ++ [c]) ++ rest := by simp
    by_cases h1 : (c = ',' && depth == 0) = true
    · rw [if_pos h1] at h; simp at h
    · rw [if_neg h1] at h
      rw [if_neg h1]
      by_cases h2 : openBrackets.contains c = true
      · rw [if_pos h2] at h; rw [if_pos h2, hassoc]; exact ih _ _ h
      · rw [if_neg h2] at h
        rw [if_neg h2]
        by_cases h3 : closeBrackets.contains c = true
        · rw [if_pos h3] at h; rw [if_pos h3, hassoc]; exact ih _ _ h
        · rw [if_neg h3] at h; rw [if_neg h3, hassoc]; exact ih _ _ h

/-- C10: `_split_arguments` splits only on commas at bracket-nesting
depth zero — a block with no depth-zero comma yields a single entry (its
stripped text, or nothing when blank) — and consequently a `rw` command
whose sole expression holds a comma inside nested brackets parses as a
single rewrite rule. -/
theorem split_arguments_respects_nesting :
    (∀ s : Str, hasTopComma s 0 = false →
      split_arguments s = if (pyStrip s).isEmpty then [] else [pyStrip s])
  ∧ RewriteTactic.from_string "rw [foo (a, b)]".data
      = .ok (.rewriteTactic [⟨"foo (a, b)".data, .forward⟩] none) := by
  constructor
  · intro s h
    have h2 := splitArgsAux_no_top_comma s [] 0 h
    simpa [split_arguments] using h2
  · rfl

/-- Witness for `split_arguments_respects_nesting`: a concrete block
whose only comma sits inside round brackets is kept whole. -/
theorem split_arguments_respects_nesting_witness :
    split_arguments "a (b, c)".data
      = if (pyStrip "a (b, c)".data).isEmpty then [] else [pyStrip "a (b, c)".data] :=
  split_arguments_respects_nesting.1 "a (b, c)".data rfl

/-- C3: of the five sample texts of the round-trip law, the four with
keywords `rw`, `apply` and `nth_rewrite` parse and serialize back to the
original text, but the closing tactic `rfl` is rejected: the registry
holds no entry for the no-argument closing tactic, even though the
repository's own tests use `RflTactic` and assert that round trip. -/
theorem tactic_model_roundtrip_samples :
    ((TacticModel.from_string "rw [two_eq_succ_one]".data).map TacticModel.to_string
        = .ok "rw [two_eq_succ_one]".data)
  ∧ ((TacticModel.from_string "rw [← add_assoc, add_comm] at h".data).map TacticModel.to_string
        = .ok "rw [← add_assoc, add_comm] at h".data)
  ∧ ((TacticModel.from_string "apply mul_left_ne_zero at h".data).map TacticModel.to_string
        = .ok "apply mul_left_ne_zero at h".data)
  ∧ ((TacticModel.from_string "nth_rewrite 2 [two_eq_succ_one]".data).map TacticModel.to_string
        = .ok "nth_rewrite 2 [two_eq_succ_one]".data)
  ∧ TacticModel.from_string "rfl".data
      = .error (.parseError "Unsupported tactic keyword: 'rfl'".data) :=
  ⟨rfl, rfl, rfl, rfl, rfl⟩

/-- C9: a command whose leading keyword is unknown to the registry fails
with a parse error naming that keyword, an empty or comment-only command
fails with the empty-command parse error, and `"foo bar"` in particular
reports the keyword `foo`; no other kind of error is produced on these
inputs. -/
theorem parse_error_on_unknown_or_empty :
    (∀ command : Str,
        (stripInlineComment command).isEmpty = false →
        TACTIC_REGISTRY.lookup
            ((stripInlineComment command).takeWhile (fun c => ¬ isSpaceChar c)) = none →
        TacticModel.from_string command =
          .error (.parseError ("Unsupported tactic keyword: '".data
            ++ (stripInlineComment command).takeWhile (fun c => ¬ isSpaceChar c)
            ++ "'".data)))
  ∧ (∀ command : Str,
        (stripInlineComment command).isEmpty = true →
        TacticModel.from_string command = .error (.parseError "Empty tactic command".data))
  ∧ TacticModel.from_string "foo bar".data
      = .error (.parseError "Unsupported tactic keyword: 'foo'".data) := by
  refine ⟨?_, ?_, rfl⟩
  · intro command h1 h2
    simp only [TacticModel.from_string, h1, h2, Bool.false_eq_true, if_false]
  · intro command h1
    simp only [TacticModel.from_string, h1, if_true]

/-- Witness for `parse_error_on_unknown_or_empty` at the unknown keyword
`baz` and at a whitespace-only command. -/
theorem parse_error_on_unknown_or_empty_witness :
    (TacticModel.from_string "baz qux".data =
        .error (.parseError ("Unsupported tactic keyword: '".data
          ++ (stripInlineComment "baz qux".data).takeWhile (fun c => ¬ isSpaceChar c)
          ++ "'".data)))
  ∧ TacticModel.from_string "   ".data = .error (.parseError "Empty tactic command".data) :=
  ⟨parse_error_on_unknown_or_empty.1 "baz qux".data rfl rfl,
   parse_error_on_unknown_or_empty.2.1 "   ".data rfl⟩

/-- Auxiliary: inverting `Option.map`. -/
theorem option_map_eq_some {α β : Type} (f : α → β) (o : Option α) (b : β)
    (h : o.map f = some b) : ∃ a, o = some a ∧ f a = b := by
  cases o with
  | none => exact Option.noConfusion h
  | some a => exact ⟨a, rfl, Option.some.inj h⟩

/-- Auxiliary: the invariant survives a failed candidate submission
(mark the edge, log the submission, record the failure). -/
theorem candInv_fail_step (server : Server) (st : DfsState) (state_id tactic : Str)
    (hdup : (state_id, tactic) ∉ st.exploredEdges)
    (hinv : CandInv server st) :
    CandInv server { st with
      exploredEdges := (state_id, tactic) :: st.exploredEdges,
      events := st.events ++ [Event.submit state_id tactic],
      traceGraph := st.traceGraph.map
        (fun g => g.record_attempt state_id tactic false none) } := by
  have hsub : submitsOf (st.events ++ [Event.submit state_id tactic])
      = submitsOf st.events ++ [(state_id, tactic)] := by
    rw [submitsOf_append, submitsOf_submit]
  have hrea : reachesOf (st.events ++ [Event.submit state_id tactic])
      = reachesOf st.events := by
    rw [reachesOf_append, reachesOf_submit, List.append_nil]
  refine ⟨?_, ?_, ?_, ?_, ?_, ?_⟩
  · rw [hsub]
    refine nodup_snoc _ _ hinv.submits_nodup fun hmem => ?_
    exact hdup (hinv.submits_explored _ hmem)
  · intro p hp
    rw [hsub] at hp
    rcases List.mem_append.mp hp with hp | hp
    · exact List.mem_cons_of_mem _ (hinv.submits_explored _ hp)
    · rw [List.mem_singleton] at hp
      subst hp
      exact List.mem_cons_self _ _
  · intro s d' hr
    rw [hrea] at hr
    exact hinv.reach_depth s d' hr
  · intro s d hl
    rw [hrea]
    exact hinv.depth_reached s d hl
  · rw [expandsDominated_append, hinv.expands_ok]
    rfl
  · intro g hg p hp hpf
    obtain ⟨g0, hg0, hfg⟩ := option_map_eq_some _ _ _ hg
    subst hfg
    rw [hsub] at hp
    rcases List.mem_append.mp hp with hp | hp
    · exact failuresOf_record_attempt_mono g0 state_id tactic false none p.1 p.2
        (hinv.fails_recorded g0 hg0 p hp hpf)
    · rw [List.mem_singleton] at hp
      subst hp
      exact failuresOf_record_attempt_false_self g0 state_id tactic

/-- Auxiliary: the invariant survives a successful candidate submission
whose resulting state is recorded (goals cached, trace updated, the
reach logged), provided the new state's recorded depth is consistent
with the new reach: either it already bounds it from below, or the entry
`(new_state, new_depth)` is simultaneously prepended. -/
theorem candInv_success_step (server : Server) (st : DfsState)
    (state_id tactic new_state : Str) (new_goals : List Str) (new_depth : Nat)
    (newDepthMap : List (Str × Nat))
    (hdup : (state_id, tactic) ∉ st.exploredEdges)
    (hok : respFailed (server tactic state_id) = false)
    (hmap : (newDepthMap = st.stateDepth
        ∧ ∃ d, st.stateDepth.lookup new_state = some d ∧ d ≤ new_depth)
      ∨ (newDepthMap = (new_state, new_depth) :: st.stateDepth
        ∧ ∀ d, st.stateDepth.lookup new_state = some d → new_depth < d))
    (hinv : CandInv server st) :
    CandInv server { st with
      exploredEdges := (state_id, tactic) :: st.exploredEdges,
      stateGoals := (new_state, new_goals) :: st.stateGoals,
      stateDepth := newDepthMap,
      traceGraph := st.traceGraph.map (fun g =>
        (g.record_attempt state_id tactic true (some new_state)).record_node
          new_state new_goals new_depth),
      events := (st.events ++ [Event.submit state_id tactic])
        ++ [Event.reach new_state new_depth] } := by
  have hsub : submitsOf ((st.events ++ [Event.submit state_id tactic])
        ++ [Event.reach new_state new_depth])
      = submitsOf st.events ++ [(state_id, tactic)] := by
    rw [submitsOf_append, submitsOf_append, submitsOf_submit, submitsOf_reach,
      List.append_nil]
  have hrea : reachesOf ((st.events ++ [Event.submit state_id tactic])
        ++ [Event.reach new_state new_depth])
      = reachesOf st.events ++ [(new_state, new_depth)] := by
    rw [reachesOf_append, reachesOf_append, reachesOf_submit, reachesOf_reach,
      List.append_nil]
  refine ⟨?_, ?_, ?_, ?_, ?_, ?_⟩
  · rw [hsub]
    refine nodup_snoc _ _ hinv.submits_nodup fun hmem => ?_
    exact hdup (hinv.submits_explored _ hmem)
  · intro p hp
    rw [hsub] at hp
    rcases List.mem_append.mp hp with hp | hp
    · exact List.mem_cons_of_mem _ (hinv.submits_explored _ hp)
    · rw [List.mem_singleton] at hp
      subst hp
      exact List.mem_cons_self _ _
  · intro s d' hr
    rw [hrea] at hr
    rcases List.mem_append.mp hr with hr | hr
    · obtain ⟨d, hl, hle⟩ := hinv.reach_depth s d' hr
      rcases hmap with ⟨rfl, _⟩ | ⟨rfl, hlt⟩
      · exact ⟨d, hl, hle⟩
      · by_cases hss : s = new_state
        · subst hss
          exact ⟨new_depth, lookup_cons_self _ _ _,
            Nat.le_of_lt (Nat.lt_of_lt_of_le (hlt d hl) hle)⟩
        · exact ⟨d, by rw [lookup_cons_of_ne _ _ _ _ hss]; exact hl, hle⟩
    · rw [List.mem_singleton] at hr
      have hs : s = new_state := congrArg Prod.fst hr
      have hd : d' = new_depth := congrArg Prod.snd hr
      subst hs
      rcases hmap with ⟨rfl, d, hl, hle⟩ | ⟨rfl, _⟩
      · exact ⟨d, hl, by rw [hd]; exact hle⟩
      · exact ⟨new_depth, lookup_cons_self _ _ _, by rw [hd]⟩
  · intro s d hl
    rw [hrea]
    rcases hmap with ⟨rfl, _⟩ | ⟨rfl, _⟩
    · exact List.mem_append_left _ (hinv.depth_reached s d hl)
    · by_cases hss : s = new_state
      · subst hss
        rw [lookup_cons_self] at hl
        cases hl
        exact List.mem_append_right _ (List.mem_singleton_self _)
      · rw [lookup_cons_of_ne _ _ _ _ hss] at hl
        exact List.mem_append_left _ (hinv.depth_reached s d hl)
  · rw [expandsDominated_append, expandsDominated_append, hinv.expands_ok]
    rfl
  · intro g hg p hp hpf
    obtain ⟨g0, hg0, hfg⟩ := option_map_eq_some _ _ _ hg
    subst hfg
    rw [hsub] at hp
    rcases List.mem_append.mp hp with hp | hp
    · rw [failuresOf_record_node]
      exact failuresOf_record_attempt_mono g0 state_id tactic true (some new_state) p.1 p.2
        (hinv.fails_recorded g0 hg0 p hp hpf)
    · rw [List.mem_singleton] at hp
      subst hp
      rw [hok] at hpf
      cases hpf

/-- Auxiliary: one pass of the candidate loop — the stack and the
solution list are untouched, recorded depths only decrease, a recorded
depth equal to `sequence.length + 1` never changes, the invariant is
preserved, and every collected child carries a path of length
`sequence.length + 1` at which its state is recorded. -/
theorem processCandidates_spec (server : Server) (state_id : Str) (sequence : List Str) :
    ∀ (cands : List Str) (st : DfsState),
      ((processCandidates server state_id sequence cands st).1.stack = st.stack)
      ∧ ((processCandidates server state_id sequence cands st).1.solutions = st.solutions)
      ∧ (∀ s d, st.stateDepth.lookup s = some d →
          ∃ d', (processCandidates server state_id sequence cands st).1.stateDepth.lookup s
              = some d' ∧ d' ≤ d)
      ∧ (∀ s, st.stateDepth.lookup s = some (sequence.length + 1) →
          (processCandidates server state_id sequence cands st).1.stateDepth.lookup s
            = some (sequence.length + 1))
      ∧ (CandInv server st →
          CandInv server (processCandidates server state_id sequence cands st).1)
      ∧ (∀ p ∈ (processCandidates server state_id sequence cands st).2,
          p.2.length = sequence.length + 1
          ∧ (processCandidates server state_id sequence cands st).1.stateDepth.lookup p.1
              = some (sequence.length + 1)) := by
  intro cands
  induction cands with
  | nil =>
    intro st
    refine ⟨rfl, rfl, ?_, ?_, ?_, ?_⟩
    · intro s d hl
      exact ⟨d, hl, Nat.le_refl _⟩
    · intro s hl
      exact hl
    · intro hinv
      exact hinv
    · intro p hp
      cases hp
  | cons tactic rest ih =>
    intro st
    by_cases hdup : (state_id, tactic) ∈ st.exploredEdges
    · simp only [processCandidates, if_pos hdup]
      exact ih st
    · simp only [processCandidates, if_neg hdup]
      by_cases hfail : respFailed (server tactic state_id) = true
      · rw [if_pos hfail]
        obtain ⟨h1, h2, h3, h4, h5, h6⟩ := ih { st with
          exploredEdges := (state_id, tactic) :: st.exploredEdges,
          events := st.events ++ [Event.submit state_id tactic],
          traceGraph := st.traceGraph.map
            (fun g => g.record_attempt state_id tactic false none) }
        exact ⟨h1, h2, h3, h4,
          fun hinv => h5 (candInv_fail_step server st state_id tactic hdup hinv), h6⟩
      · rw [if_neg hfail]
        have hok : respFailed (server tactic state_id) = false :=
          Bool.eq_false_iff.mpr hfail
        cases hlk : st.stateDepth.lookup (respProofState (server tactic state_id)) with
        | some recorded_child =>
          dsimp only
          by_cases hle : recorded_child ≤ sequence.length + 1
          · rw [if_pos hle]
            obtain ⟨h1, h2, h3, h4, h5, h6⟩ := ih { st with
              exploredEdges := (state_id, tactic) :: st.exploredEdges,
              stateGoals := (respProofState (server tactic state_id),
                respGoals (server tactic state_id)) :: st.stateGoals,
              traceGraph := st.traceGraph.map (fun g =>
                (g.record_attempt state_id tactic true
                    (some (respProofState (server tactic state_id)))).record_node
                  (respProofState (server tactic state_id))
                  (respGoals (server tactic state_id)) (sequence.length + 1)),
              events := (st.events ++ [Event.submit state_id tactic])
                ++ [Event.reach (respProofState (server tactic state_id))
                      (sequence.length + 1)] }
            refine ⟨h1, h2, h3, h4, ?_, h6⟩
            intro hinv
            exact h5 (candInv_success_step server st state_id tactic _ _ _ _ hdup hok
              (Or.inl ⟨rfl, recorded_child, hlk, hle⟩) hinv)
          · rw [if_neg hle]
            have hst3 := ih { st with
              exploredEdges := (state_id, tactic) :: st.exploredEdges,
              stateGoals := (respProofState (server tactic state_id),
                respGoals (server tactic state_id)) :: st.stateGoals,
              stateDepth := (respProofState (server tactic state_id), sequence.length + 1)
                :: st.stateDepth,
              traceGraph := st.traceGraph.map (fun g =>
                (g.record_attempt state_id tactic true
                    (some (respProofState (server tactic state_id)))).record_node
                  (respProofState (server tactic state_id))
                  (respGoals (server tactic state_id)) (sequence.length + 1)),
              events := (st.events ++ [Event.submit state_id tactic])
                ++ [Event.reach (respProofState (server tactic state_id))
                      (sequence.length + 1)] }
            obtain ⟨h1, h2, h3, h4, h5, h6⟩ := hst3
            refine ⟨h1, h2, ?_, ?_, ?_, ?_⟩
            · intro s d hl
              by_cases hss : s = respProofState (server tactic state_id)
              · subst hss
                rw [hlk] at hl
                cases hl
                obtain ⟨d', hl', hle'⟩ := h3 _ (sequence.length + 1)
                  (lookup_cons_self _ _ _)
                exact ⟨d', hl', Nat.le_of_lt (Nat.lt_of_le_of_lt hle'
                  (Nat.lt_of_not_le hle))⟩
              · obtain ⟨d', hl', hle'⟩ := h3 s d
                  (by rw [lookup_cons_of_ne _ _ _ _ hss]; exact hl)
                exact ⟨d', hl', hle'⟩
            · intro s hl
              by_cases hss : s = respProofState (server tactic state_id)
              · subst hss
                rw [hlk] at hl
                cases hl
                exact absurd (Nat.le_refl _) hle
              · exact h4 s (by rw [lookup_cons_of_ne _ _ _ _ hss]; exact hl)
            · intro hinv
              refine h5 (candInv_success_step server st state_id tactic _ _ _ _ hdup hok
                (Or.inr ⟨rfl, ?_⟩) hinv)
              intro d hl
              rw [hlk] at hl
              cases hl
              exact Nat.lt_of_not_le hle
            · intro p hp
              rcases List.mem_cons.mp hp with hp | hp
              · subst hp
                refine ⟨by simp, ?_⟩
                exact h4 _ (lookup_cons_self _ _ _)
              · exact h6 p hp
        | none =>
          dsimp only
          have hst3 := ih { st with
            exploredEdges := (state_id, tactic) :: st.exploredEdges,
            stateGoals := (respProofState (server tactic state_id),
              respGoals (server tactic state_id)) :: st.stateGoals,
            stateDepth := (respProofState (server tactic state_id), sequence.length + 1)
              :: st.stateDepth,
            traceGraph := st.traceGraph.map (fun g =>
              (g.record_attempt state_id tactic true
                  (some (respProofState (server tactic state_id)))).record_node
                (respProofState (server tactic state_id))
                (respGoals (server tactic state_id)) (sequence.length + 1)),
            events := (st.events ++ [Event.submit state_id tactic])
              ++ [Event.reach (respProofState (server tactic state_id))
                    (sequence.length + 1)] }
          obtain ⟨h1, h2, h3, h4, h5, h6⟩ := hst3
          refine ⟨h1, h2, ?_, ?_, ?_, ?_⟩
          · intro s d hl
            by_cases hss : s = respProofState (server tactic state_id)
            · subst hss
              rw [hlk] at hl
              cases hl
            · obtain ⟨d', hl', hle'⟩ := h3 s d
                (by rw [lookup_cons_of_ne _ _ _ _ hss]; exact hl)
              exact ⟨d', hl', hle'⟩
          · intro s hl
            by_cases hss : s = respProofState (server tactic state_id)
            · subst hss
              rw [hlk] at hl
              cases hl
            · exact h4 s (by rw [lookup_cons_of_ne _ _ _ _ hss]; exact hl)
          · intro hinv
            refine h5 (candInv_success_step server st state_id tactic _ _ _ _ hdup hok
              (Or.inr ⟨rfl, ?_⟩) hinv)
            intro d hl
            rw [hlk] at hl
            cases hl
          · intro p hp
            rcases List.mem_cons.mp hp with hp | hp
            · subst hp
              refine ⟨by simp, ?_⟩
              exact h4 _ (lookup_cons_self _ _ _)
            · exact h6 p hp

/-- Auxiliary: an expansion event is dominated when the expanded depth
bounds every accumulated reach of that state from below. -/
theorem expandsDominated_expand_singleton (s : Str) (d : Nat) (acc : List (Str × Nat))
    (h : ∀ d', (s, d') ∈ acc → d ≤ d') :
    expandsDominated [Event.expand s d] acc = true := by
  simp only [expandsDominated, Bool.and_true]
  rw [List.all_eq_true]
  intro p hp
  by_cases hps : p.1 = s
  · rw [if_pos hps]
    rw [decide_eq_true_iff]
    refine h p.2 ?_
    rw [← hps]
    exact hp
  · rw [if_neg hps]

/-- Auxiliary: the invariant survives a depth refresh at pop time
(the recorded depth is absent or larger and is replaced by the popped
path length, with the reach logged). -/
theorem candInv_depth_refresh (server : Server) (st : DfsState) (state_id : Str)
    (len : Nat)
    (hnot : ∀ d, st.stateDepth.lookup state_id = some d → len < d)
    (hinv : CandInv server st) :
    CandInv server { st with
      stateDepth := (state_id, len) :: st.stateDepth,
      events := st.events ++ [Event.reach state_id len] } := by
  have hsub : submitsOf (st.events ++ [Event.reach state_id len])
      = submitsOf st.events := by
    rw [submitsOf_append, submitsOf_reach, List.append_nil]
  have hrea : reachesOf (st.events ++ [Event.reach state_id len])
      = reachesOf st.events ++ [(state_id, len)] := by
    rw [reachesOf_append, reachesOf_reach]
  refine ⟨?_, ?_, ?_, ?_, ?_, ?_⟩
  · rw [hsub]; exact hinv.submits_nodup
  · intro p hp
    rw [hsub] at hp
    exact hinv.submits_explored p hp
  · intro s d' hr
    rw [hrea] at hr
    rcases List.mem_append.mp hr with hr | hr
    · obtain ⟨d, hl, hle⟩ := hinv.reach_depth s d' hr
      by_cases hss : s = state_id
      · subst hss
        exact ⟨len, lookup_cons_self _ _ _,
          Nat.le_of_lt (Nat.lt_of_lt_of_le (hnot d hl) hle)⟩
      · exact ⟨d, by rw [lookup_cons_of_ne _ _ _ _ hss]; exact hl, hle⟩
    · rw [List.mem_singleton] at hr
      have hs : s = state_id := congrArg Prod.fst hr
      have hd : d' = len := congrArg Prod.snd hr
      subst hs
      exact ⟨len, lookup_cons_self _ _ _, by rw [hd]⟩
  · intro s d hl
    rw [hrea]
    by_cases hss : s = state_id
    · subst hss
      rw [lookup_cons_self] at hl
      cases hl
      exact List.mem_append_right _ (List.mem_singleton_self _)
    · rw [lookup_cons_of_ne _ _ _ _ hss] at hl
      exact List.mem_append_left _ (hinv.depth_reached s d hl)
  · rw [expandsDominated_append, hinv.expands_ok]
    rfl
  · intro g hg p hp hpf
    rw [hsub] at hp
    exact hinv.fails_recorded g hg p hp hpf

/-- Auxiliary: expanding a popped item whose state is recorded exactly
at the item's path length preserves the full loop invariant. -/
theorem dfsExpand_inv (server : Server) (available lemmas : List Str) (st : DfsState)
    (state_id : Str) (sequence : List Str) (goal_str : Str)
    (hinv : CandInv server st)
    (hstack : ∀ p ∈ st.stack, ∃ d, st.stateDepth.lookup p.1 = some d ∧ d ≤ p.2.length)
    (hsol : st.solutions = [])
    (hlk : st.stateDepth.lookup state_id = some sequence.length) :
    DfsInv server (dfsExpand server available lemmas st state_id sequence goal_str) := by
  have hinv1 : CandInv server { st with
      events := st.events ++ [Event.expand state_id sequence.length] } := by
    have hsub : submitsOf (st.events ++ [Event.expand state_id sequence.length])
        = submitsOf st.events := by
      rw [submitsOf_append, submitsOf_expand, List.append_nil]
    have hrea : reachesOf (st.events ++ [Event.expand state_id sequence.length])
        = reachesOf st.events := by
      rw [reachesOf_append, reachesOf_expand, List.append_nil]
    refine ⟨?_, ?_, ?_, ?_, ?_, ?_⟩
    · rw [hsub]; exact hinv.submits_nodup
    · intro p hp
      rw [hsub] at hp
      exact hinv.submits_explored p hp
    · intro s d' hr
      rw [hrea] at hr
      exact hinv.reach_depth s d' hr
    · intro s d hl
      rw [hrea]
      exact hinv.depth_reached s d hl
    · rw [expandsDominated_append, hinv.expands_ok]
      have hcheck : expandsDominated [Event.expand state_id sequence.length]
          ([] ++ reachesOf st.events) = true := by
        refine expandsDominated_expand_singleton _ _ _ ?_
        intro d' hr
        rw [List.nil_append] at hr
        obtain ⟨d, hl, hle⟩ := hinv.reach_depth state_id d' hr
        rw [hlk] at hl
        cases hl
        exact hle
      rw [hcheck]
      rfl
    · intro g hg p hp hpf
      rw [hsub] at hp
      exact hinv.fails_recorded g hg p hp hpf
  obtain ⟨h1, h2, h3, h4, h5, h6⟩ := processCandidates_spec server state_id sequence
    (generate_tactic_candidates goal_str available lemmas)
    { st with events := st.events ++ [Event.expand state_id sequence.length] }
  have hout := h5 hinv1
  refine ⟨⟨hout.submits_nodup, hout.submits_explored, hout.reach_depth,
    hout.depth_reached, hout.expands_ok, hout.fails_recorded⟩, ?_, ?_⟩
  · intro p hp
    simp only [dfsExpand] at hp ⊢
    rw [foldl_cons_reverse] at hp
    rcases List.mem_append.mp hp with hp | hp
    · obtain ⟨hlen, hl⟩ := h6 p hp
      exact ⟨sequence.length + 1, hl, Nat.le_of_eq hlen.symm⟩
    · rw [h1] at hp
      obtain ⟨d, hl, hle⟩ := hstack p hp
      obtain ⟨d', hl', hle'⟩ := h3 p.1 d hl
      exact ⟨d', hl', Nat.le_trans hle' hle⟩
  · simp only [dfsExpand]
    rw [h2]
    exact hsol

/-- Auxiliary: one loop iteration preserves the invariant when it
continues, and on return delivers an invariant final state together with
at most one solution. -/
theorem dfsStep_inv (server : Server) (available lemmas : List Str) (max_depth : Nat)
    (st : DfsState) (hinv : DfsInv server st) :
    (∀ st2, dfsStep server available lemmas max_depth st = .continueWith st2 →
        DfsInv server st2)
  ∧ (∀ stf sols, dfsStep server available lemmas max_depth st = .finished stf sols →
        CandInv server stf ∧ sols.length ≤ 1) := by
  cases hstk : st.stack with
  | nil =>
    constructor
    · intro st2 h
      simp only [dfsStep, hstk] at h
      cases h
    · intro stf sols h
      simp only [dfsStep, hstk] at h
      cases h
      refine ⟨hinv.toCandInv, ?_⟩
      rw [hinv.solutions_nil]
      exact Nat.zero_le 1
  | cons top stackRest =>
    obtain ⟨state_id, sequence⟩ := top
    have hpop : DfsInv server { st with stack := stackRest } := by
      refine ⟨⟨hinv.submits_nodup, hinv.submits_explored, hinv.reach_depth,
        hinv.depth_reached, hinv.expands_ok, hinv.fails_recorded⟩, ?_, hinv.solutions_nil⟩
      intro p hp
      refine hinv.stack_depth p ?_
      rw [hstk]
      exact List.mem_cons_of_mem _ hp
    constructor
    · intro st2 h
      simp only [dfsStep, hstk] at h
      by_cases hmd : sequence.length > max_depth
      · rw [if_pos hmd] at h
        cases h
        exact hpop
      · rw [if_neg hmd] at h
        by_cases hempty : (((st.stateGoals.lookup state_id).getD []).isEmpty) = true
        · rw [if_pos hempty] at h
          cases h
        · rw [if_neg hempty] at h
          cases hlkd : st.stateDepth.lookup state_id with
          | some recorded_depth =>
            rw [hlkd] at h
            dsimp only at h
            by_cases hlt : recorded_depth < sequence.length
            · rw [if_pos hlt] at h
              cases h
              exact hpop
            · rw [if_neg hlt] at h
              by_cases hgt : recorded_depth > sequence.length
              · rw [if_pos hgt] at h
                cases h
                refine dfsExpand_inv server available lemmas _ state_id sequence _ ?_ ?_
                  hpop.solutions_nil (lookup_cons_self _ _ _)
                · refine candInv_depth_refresh server { st with stack := stackRest }
                    state_id sequence.length ?_ hpop.toCandInv
                  intro d hl
                  rw [hlkd] at hl
                  cases hl
                  exact hgt
                · intro p hp
                  obtain ⟨d, hl, hle⟩ := hpop.stack_depth p hp
                  by_cases hps : p.1 = state_id
                  · rw [hps, hlkd] at hl
                    cases hl
                    refine ⟨sequence.length, ?_, Nat.le_of_lt (Nat.lt_of_lt_of_le hgt hle)⟩
                    rw [hps]
                    exact lookup_cons_self _ _ _
                  · exact ⟨d, by rw [lookup_cons_of_ne _ _ _ _ hps]; exact hl, hle⟩
              · rw [if_neg hgt] at h
                cases h
                have hrdeq : recorded_depth = sequence.length :=
                  Nat.le_antisymm (Nat.le_of_not_lt hgt) (Nat.le_of_not_lt hlt)
                refine dfsExpand_inv server available lemmas _ state_id sequence _
                  hpop.toCandInv hpop.stack_depth hpop.solutions_nil ?_
                rw [hlkd, hrdeq]
          | none =>
            rw [hlkd] at h
            dsimp only at h
            cases h
            refine dfsExpand_inv server available lemmas _ state_id sequence _ ?_ ?_
              hpop.solutions_nil (lookup_cons_self _ _ _)
            · refine candInv_depth_refresh server { st with stack := stackRest }
                state_id sequence.length ?_ hpop.toCandInv
              intro d hl
              rw [hlkd] at hl
              cases hl
            · intro p hp
              obtain ⟨d, hl, hle⟩ := hpop.stack_depth p hp
              by_cases hps : p.1 = state_id
              · rw [hps, hlkd] at hl
                cases hl
              · exact ⟨d, by rw [lookup_cons_of_ne _ _ _ _ hps]; exact hl, hle⟩
    · intro stf sols h
      simp only [dfsStep, hstk] at h
      by_cases hmd : sequence.length > max_depth
      · rw [if_pos hmd] at h
        cases h
      · rw [if_neg hmd] at h
        by_cases hempty : (((st.stateGoals.lookup state_id).getD []).isEmpty) = true
        · rw [if_pos hempty] at h
          cases h
          constructor
          · refine ⟨hinv.submits_nodup, hinv.submits_explored, hinv.reach_depth,
              hinv.depth_reached, hinv.expands_ok, ?_⟩
            intro g hg p hp hpf
            obtain ⟨g0, hg0, hfg⟩ := option_map_eq_some _ _ _ hg
            rw [← hfg]
            exact hinv.fails_recorded g0 hg0 p hp hpf
          · rw [hinv.solutions_nil]
            simp
        · rw [if_neg hempty] at h
          cases hlkd : st.stateDepth.lookup state_id with
          | some recorded_depth =>
            rw [hlkd] at h
            dsimp only at h
            by_cases hlt : recorded_depth < sequence.length
            · rw [if_pos hlt] at h
              cases h
            · rw [if_neg hlt] at h
              by_cases hgt : recorded_depth > sequence.length
              · rw [if_pos hgt] at h
                cases h
              · rw [if_neg hgt] at h
                cases h
          | none =>
            rw [hlkd] at h
            dsimp only at h
            cases h

/-- Auxiliary: for every fuel bound, the loop delivers an invariant
final state and at most one solution from any invariant state. -/
theorem dfsLoop_inv (server : Server) (available lemmas : List Str) (max_depth : Nat) :
    ∀ (fuel : Nat) (st : DfsState), DfsInv server st →
      CandInv server (dfsLoop server available lemmas max_depth fuel st).1
      ∧ (dfsLoop server available lemmas max_depth fuel st).2.length ≤ 1 := by
  intro fuel
  induction fuel with
  | zero =>
    intro st hinv
    refine ⟨hinv.toCandInv, ?_⟩
    simp only [dfsLoop]
    rw [hinv.solutions_nil]
    exact Nat.zero_le 1
  | succ fuel ih =>
    intro st hinv
    simp only [dfsLoop]
    cases hstep : dfsStep server available lemmas max_depth st with
    | finished stf sols =>
      exact (dfsStep_inv server available lemmas max_depth st hinv).2 stf sols hstep
    | continueWith st2 =>
      exact ih st2 ((dfsStep_inv server available lemmas max_depth st hinv).1 st2 hstep)

/-- Auxiliary: the seeded root state satisfies the loop invariant. -/
theorem dfs_init_inv (server : Server) (trace : Option SearchGraph)
    (root_state : Str) (root_goals : List Str) :
    DfsInv server {
      stateGoals := [(root_state, root_goals)],
      stack := [(root_state, [])],
      stateDepth := [(root_state, 0)],
      exploredEdges := [],
      traceGraph := trace.map (fun g => g.record_node root_state root_goals 0),
      solutions := [],
      events := [Event.reach root_state 0] } := by
  refine ⟨⟨?_, ?_, ?_, ?_, ?_, ?_⟩, ?_, rfl⟩
  · exact List.nodup_nil
  · intro p hp
    cases hp
  · intro s d' hr
    simp only [reachesOf, List.filterMap_cons, List.filterMap_nil] at hr
    rw [List.mem_singleton] at hr
    have hs : s = root_state := congrArg Prod.fst hr
    have hd : d' = 0 := congrArg Prod.snd hr
    subst hs
    exact ⟨0, lookup_cons_self _ _ _, by rw [hd]⟩
  · intro s d hl
    by_cases hss : s = root_state
    · subst hss
      rw [lookup_cons_self] at hl
      cases hl
      simp [reachesOf]
    · rw [lookup_cons_of_ne _ _ _ _ hss] at hl
      cases hl
  · rfl
  · intro g hg p hp hpf
    cases hp
  · intro p hp
    rw [List.mem_singleton] at hp
    subst hp
    exact ⟨0, lookup_cons_self _ _ _, Nat.le_refl 0⟩

/-- Auxiliary: every search run ends in an invariant final state and
returns at most one solution. -/
theorem depth_first_search_run_inv (server : Server) (available lemmas : List Str)
    (max_depth fuel : Nat) (trace : Option SearchGraph) :
    CandInv server
        (depth_first_search_run server available lemmas max_depth fuel trace).finalState
    ∧ (depth_first_search_run server available lemmas max_depth fuel trace).solutions.length
        ≤ 1 := by
  rw [depth_first_search_run]
  by_cases hp : respFailed (server "skip".data "0".data) = true
  · rw [if_pos hp]
    dsimp only
    refine ⟨⟨List.nodup_nil, ?_, ?_, ?_, rfl, ?_⟩, Nat.zero_le 1⟩
    · intro p hp2
      cases hp2
    · intro s d' hr
      cases hr
    · intro s d hl
      cases hl
    · intro g hg p hp2 hpf
      cases hp2
  · rw [if_neg hp]
    dsimp only
    exact dfsLoop_inv server available lemmas max_depth fuel _
      (dfs_init_inv server trace (respProofState (server "skip".data "0".data))
        (respGoals (server "skip".data "0".data)))

/-- C1: within one search run, no `(state, candidate)` pair is submitted
to the backend twice — the submission log of every run is duplicate-free
— and every submitted pair has been added to the explored-edges set. -/
theorem dfs_no_duplicate_submissions (server : Server) (available lemmas : List Str)
    (max_depth fuel : Nat) (trace : Option SearchGraph) :
    (submitsOf (depth_first_search_run server available lemmas max_depth fuel
        trace).finalState.events).Nodup
    ∧ (∀ p ∈ submitsOf (depth_first_search_run server available lemmas max_depth fuel
          trace).finalState.events,
        p ∈ (depth_first_search_run server available lemmas max_depth fuel
          trace).finalState.exploredEdges) :=
  ⟨(depth_first_search_run_inv server available lemmas max_depth fuel trace).1.submits_nodup,
   (depth_first_search_run_inv server available lemmas max_depth fuel
      trace).1.submits_explored⟩

/-- Witness for `dfs_no_duplicate_submissions`: a run over the
one-goal backend submits `("1", rfl)` once, and that pair sits in the
explored-edge set. -/
theorem dfs_no_duplicate_submissions_witness :
    (submitsOf (depth_first_search_run probeOnlyServer ["rfl".data] [] 6 5
        none).finalState.events).Nodup
    ∧ ("1".data, "rfl".data) ∈ (depth_first_search_run probeOnlyServer ["rfl".data] [] 6 5
        none).finalState.exploredEdges :=
  ⟨(dfs_no_duplicate_submissions probeOnlyServer ["rfl".data] [] 6 5 none).1,
   (dfs_no_duplicate_submissions probeOnlyServer ["rfl".data] [] 6 5 none).2
     ("1".data, "rfl".data) (by decide)⟩

/-- C8: `depth_first_search` returns at most one solution — it returns
immediately on the first popped goalless state, and its parameters
offer no exhaustive variant. -/
theorem dfs_at_most_one_solution (server : Server) (available lemmas : List Str)
    (max_depth fuel : Nat) (trace : Option SearchGraph) :
    (depth_first_search server available lemmas max_depth fuel trace).length ≤ 1 :=
  (depth_first_search_run_inv server available lemmas max_depth fuel trace).2

/-- C2: a state is never expanded from a path longer than the minimal
recorded depth — every expansion in the log happens at a depth bounding
from below all earlier reaches of that state — and the recorded depth of
every state is the minimum path length at which it has been reached:
it bounds every reach from below and is itself attained by a reach. -/
theorem dfs_depth_dominance (server : Server) (available lemmas : List Str)
    (max_depth fuel : Nat) (trace : Option SearchGraph) :
    (expandsDominated (depth_first_search_run server available lemmas max_depth fuel
        trace).finalState.events [] = true)
    ∧ (∀ s d', (s, d') ∈ reachesOf (depth_first_search_run server available lemmas
          max_depth fuel trace).finalState.events →
        ∃ d, (depth_first_search_run server available lemmas max_depth fuel
            trace).finalState.stateDepth.lookup s = some d ∧ d ≤ d')
    ∧ (∀ s d, (depth_first_search_run server available lemmas max_depth fuel
          trace).finalState.stateDepth.lookup s = some d →
        (s, d) ∈ reachesOf (depth_first_search_run server available lemmas max_depth fuel
          trace).finalState.events) :=
  ⟨(depth_first_search_run_inv server available lemmas max_depth fuel trace).1.expands_ok,
   (depth_first_search_run_inv server available lemmas max_depth fuel trace).1.reach_depth,
   (depth_first_search_run_inv server available lemmas max_depth fuel
      trace).1.depth_reached⟩

/-- Witness for `dfs_depth_dominance` over the solving backend: the
expansion log is dominated, the reach of state `"2"` at depth 1 is
bounded by its recorded depth, and the recorded depth 0 of the root
state `"1"` is attained by a reach. -/
theorem dfs_depth_dominance_witness :
    (expandsDominated (depth_first_search_run rflServer ["rfl".data] [] 6 5
        none).finalState.events [] = true)
    ∧ (∃ d, (depth_first_search_run rflServer ["rfl".data] [] 6 5
          none).finalState.stateDepth.lookup "2".data = some d ∧ d ≤ 1)
    ∧ ("1".data, 0) ∈ reachesOf (depth_first_search_run rflServer ["rfl".data] [] 6 5
        none).finalState.events :=
  ⟨(dfs_depth_dominance rflServer ["rfl".data] [] 6 5 none).1,
   (dfs_depth_dominance rflServer ["rfl".data] [] 6 5 none).2.1 "2".data 1 (by decide),
   (dfs_depth_dominance rflServer ["rfl".data] [] 6 5 none).2.2 "1".data 0 (by decide)⟩

/-- C5: a failed initialization probe makes the search return the empty
solution list immediately with no tactic submissions at all; every
per-candidate backend failure is recorded as a failed attempt in the
trace; and the candidate loop absorbs a failure by recording it and
moving on to the next candidate. -/
theorem dfs_error_handling (server : Server) (available lemmas : List Str)
    (max_depth fuel : Nat) (trace : Option SearchGraph) :
    (respFailed (server "skip".data "0".data) = true →
        depth_first_search server available lemmas max_depth fuel trace = []
        ∧ (depth_first_search_run server available lemmas max_depth fuel
            trace).finalState.events = [])
    ∧ (∀ g, (depth_first_search_run server available lemmas max_depth fuel
          trace).finalState.traceGraph = some g →
        ∀ p ∈ submitsOf (depth_first_search_run server available lemmas max_depth fuel
            trace).finalState.events,
          respFailed (server p.2 p.1) = true → p.2 ∈ failuresOf g p.1)
    ∧ (∀ (st : DfsState) (state_id tactic : Str) (sequence rest : List Str),
        (state_id, tactic) ∉ st.exploredEdges →
        respFailed (server tactic state_id) = true →
        processCandidates server state_id sequence (tactic :: rest) st =
          processCandidates server state_id sequence rest
            { st with
              exploredEdges := (state_id, tactic) :: st.exploredEdges,
              events := st.events ++ [Event.submit state_id tactic],
              traceGraph := st.traceGraph.map
                (fun g => g.record_attempt state_id tactic false none) }) := by
  refine ⟨?_, ?_, ?_⟩
  · intro h
    constructor
    · rw [depth_first_search, depth_first_search_run, if_pos h]
    · rw [depth_first_search_run, if_pos h]
      rfl
  · exact (depth_first_search_run_inv server available lemmas max_depth fuel
      trace).1.fails_recorded
  · intro st state_id tactic sequence rest hdup hfail
    simp only [processCandidates, if_neg hdup, if_pos hfail]

/-- Witness for `dfs_error_handling`: the always-failing backend yields
no solutions and no submissions; the one-goal backend records the failed
`rfl` attempt in the trace; and a concrete failing candidate is recorded
and skipped. -/
theorem dfs_error_handling_witness :
    (depth_first_search alwaysFailServer [] [] 6 5 none = []
      ∧ (depth_first_search_run alwaysFailServer [] [] 6 5 none).finalState.events = [])
    ∧ ("rfl".data ∈ failuresOf
        ((depth_first_search_run probeOnlyServer ["rfl".data] [] 6 5
          (some {})).finalState.traceGraph.getD {}) "1".data)
    ∧ (processCandidates alwaysFailServer "1".data [] ["rfl".data] emptyDfsState =
        processCandidates alwaysFailServer "1".data [] []
          { emptyDfsState with
            exploredEdges := ("1".data, "rfl".data) :: emptyDfsState.exploredEdges,
            events := emptyDfsState.events ++ [Event.submit "1".data "rfl".data],
            traceGraph := emptyDfsState.traceGraph.map
              (fun g => g.record_attempt "1".data "rfl".data false none) }) :=
  ⟨(dfs_error_handling alwaysFailServer [] [] 6 5 none).1 rfl,
   (dfs_error_handling probeOnlyServer ["rfl".data] [] 6 5 (some {})).2.1
     ((depth_first_search_run probeOnlyServer ["rfl".data] [] 6 5
        (some {})).finalState.traceGraph.getD {}) rfl
     ("1".data, "rfl".data) (by decide) rfl,
   (dfs_error_handling alwaysFailServer [] [] 6 5 none).2.2 emptyDfsState
     "1".data "rfl".data [] [] (by decide) rfl⟩

end LLean
